import Mathlib

/-!
# Formal model of the minbpe tokenizer-comparison CLI

This file embeds, in Lean 4, the Python wrapper
`tokenizer-comparison-tool/docker/python/cli.py` of the minbpe repository,
together with a model of the BPE tokenizer engine that the wrapper drives.
The wrapper's own functions (`export_tokenizer_config`,
`load_tokenizer_from_config`, `handle_train_command`, ...) are translated
directly from the Python source.  The engine itself (the `minbpe` library:
`BasicTokenizer`, `RegexTokenizer`, `GPT4Tokenizer`) is not part of the
source tree, so its operations (train, encode, decode, vocabulary replay)
are modelled from the design specification's component contracts
(Trainer, Encoder, Decoder, SpecialTokenSplitter, ConfigCodec, ByteShuffle).

Conventions:
* text is a list of Unicode code points (`List Nat`);
* bytes are `Nat` values, meaningful below 256;
* Python `dict`s become association lists that preserve insertion order and
  overwrite in place (`dinsert`), exactly like CPython dictionaries.
-/

namespace Minbpe

variable {κ : Type} [DecidableEq κ]

/-! ## Python-dict style association lists -/

/-- First-match lookup in an association list (Python `d[k]` / `k in d`). -/
def dlookup (l : List (κ × α)) (k : κ) : Option α :=
  (l.find? (fun p => p.1 = k)).map Prod.snd

/-- Insert with CPython `dict` semantics: overwrite in place if the key is
present, otherwise append at the end (insertion order preserved). -/
def dinsert (l : List (κ × α)) (k : κ) (v : α) : List (κ × α) :=
  if l.any (fun p => p.1 = k) then
    l.map (fun p => if p.1 = k then (k, v) else p)
  else
    l ++ [(k, v)]

/-- Build a dict from a key-value list, later entries overwriting earlier
ones (Python dict comprehension over a list of pairs). -/
def dictOfList (l : List (κ × α)) : List (κ × α) :=
  l.foldl (fun acc p => dinsert acc p.1 p.2) []

theorem dlookup_nil (k : κ) : dlookup ([] : List (κ × α)) k = none := rfl

theorem dlookup_cons (p : κ × α) (l : List (κ × α)) (k : κ) :
    dlookup (p :: l) k = if p.1 = k then some p.2 else dlookup l k := by
  by_cases h : p.1 = k <;> simp [dlookup, List.find?_cons, h]

theorem dlookup_append (l₁ l₂ : List (κ × α)) (k : κ) :
    dlookup (l₁ ++ l₂) k = ((dlookup l₁ k).orElse (fun _ => dlookup l₂ k)) := by
  induction l₁ with
  | nil => simp [dlookup]
  | cons p l ih =>
      by_cases h : p.1 = k <;>
        simp [dlookup_cons, h, ih, Option.orElse]

/-- A key absent from the key set looks up to `none`. -/
theorem dlookup_eq_none_of_not_mem (l : List (κ × α)) (k : κ)
    (h : ∀ p ∈ l, p.1 ≠ k) : dlookup l k = none := by
  induction l with
  | nil => rfl
  | cons p t ih =>
      rw [dlookup_cons, if_neg (h p (List.mem_cons_self _ _))]
      exact ih (fun q hq => h q (List.mem_cons_of_mem _ hq))

theorem dlookup_isSome_iff (l : List (κ × α)) (k : κ) :
    (dlookup l k).isSome ↔ ∃ v, (k, v) ∈ l := by
  induction l with
  | nil => simp [dlookup]
  | cons p t ih =>
      obtain ⟨pk, pv⟩ := p
      rw [dlookup_cons]
      by_cases h : pk = k
      · subst h
        rw [if_pos rfl]
        constructor
        · intro _
          exact ⟨pv, List.mem_cons_self _ _⟩
        · intro _
          rfl
      · simp only [if_neg h, ih]
        constructor
        · rintro ⟨v, hv⟩
          exact ⟨v, List.mem_cons_of_mem _ hv⟩
        · rintro ⟨v, hv⟩
          rcases List.mem_cons.1 hv with h1 | h1
          · exact absurd (congrArg Prod.fst h1).symm h
          · exact ⟨v, h1⟩

/-! ## UTF-8 (modelled from the spec: the Decoder decodes the accumulated
byte buffer as UTF-8, substituting U+FFFD for malformed subsequences; the
Encoder converts chunks to raw bytes).  Code points map to 1-4 bytes. -/

/-- UTF-8 encoding of a single code point (1 to 4 bytes). -/
def utf8EncodeCp (c : Nat) : List Nat :=
  if c < 0x80 then [c]
  else if c < 0x800 then [0xC0 + c / 64, 0x80 + c % 64]
  else if c < 0x10000 then
    [0xE0 + c / 4096, 0x80 + (c / 64) % 64, 0x80 + c % 64]
  else
    [0xF0 + c / 262144, 0x80 + (c / 4096) % 64, 0x80 + (c / 64) % 64,
     0x80 + c % 64]

/-- UTF-8 encoding of a code-point sequence. -/
def utf8EncodeList (cs : List Nat) : List Nat := cs.flatMap utf8EncodeCp

/-- Is `b` a UTF-8 continuation byte? -/
def isCont (b : Nat) : Bool := decide (0x80 ≤ b) && decide (b < 0xC0)

/-- Decode one UTF-8 unit from lead byte `b` and tail `rest`: returns the
code point (U+FFFD on a malformed unit) and the remaining bytes. -/
def utf8Step (b : Nat) (rest : List Nat) : Nat × List Nat :=
  if b < 0x80 then (b, rest)
  else if b < 0xC0 then (0xFFFD, rest)
  else if b < 0xE0 then
    match rest with
    | b2 :: rest2 =>
      if isCont b2 then ((b - 0xC0) * 64 + (b2 - 0x80), rest2)
      else (0xFFFD, rest)
    | [] => (0xFFFD, [])
  else if b < 0xF0 then
    match rest with
    | b2 :: b3 :: rest3 =>
      if isCont b2 && isCont b3 then
        ((b - 0xE0) * 4096 + (b2 - 0x80) * 64 + (b3 - 0x80), rest3)
      else (0xFFFD, rest)
    | _ => (0xFFFD, rest)
  else
    match rest with
    | b2 :: b3 :: b4 :: rest4 =>
      if isCont b2 && isCont b3 && isCont b4 then
        ((b - 0xF0) * 262144 + (b2 - 0x80) * 4096 + (b3 - 0x80) * 64 +
          (b4 - 0x80), rest4)
      else (0xFFFD, rest)
    | _ => (0xFFFD, rest)

theorem utf8Step_len (b : Nat) (rest : List Nat) :
    (utf8Step b rest).2.length ≤ rest.length := by
  unfold utf8Step
  rcases rest with _ | ⟨b2, _ | ⟨b3, _ | ⟨b4, r4⟩⟩⟩ <;>
    (try dsimp only) <;> split_ifs <;> (try simp) <;> omega

/-- UTF-8 decoding with the replacement-character policy: malformed units
decode to U+FFFD and scanning continues. -/
def utf8Decode (bs : List Nat) : List Nat :=
  match bs with
  | [] => []
  | b :: rest =>
      (utf8Step b rest).1 :: utf8Decode (utf8Step b rest).2
termination_by bs.length
decreasing_by
  exact Nat.lt_succ_of_le (utf8Step_len b rest)

theorem utf8Decode_nil : utf8Decode [] = [] := by
  rw [utf8Decode]

theorem utf8Decode_cons (b : Nat) (rest : List Nat) :
    utf8Decode (b :: rest) =
      (utf8Step b rest).1 :: utf8Decode (utf8Step b rest).2 := by
  rw [utf8Decode]

/-- A Unicode scalar value: below `0x110000` and not a surrogate. -/
def ValidScalar (c : Nat) : Prop :=
  c < 0x110000 ∧ ¬(0xD800 ≤ c ∧ c < 0xE000)

instance (c : Nat) : Decidable (ValidScalar c) := by
  unfold ValidScalar; infer_instance

/-- Stepping the decoder at the encoding of a valid scalar consumes exactly
that encoding and returns the scalar. -/
theorem utf8Step_encodeCp (c : Nat) (hc : ValidScalar c) (bs : List Nat) :
    ∃ h t, utf8EncodeCp c = h :: t ∧ utf8Step h (t ++ bs) = (c, bs) := by
  obtain ⟨hlt, -⟩ := hc
  by_cases h1 : c < 0x80
  · refine ⟨c, [], by simp [utf8EncodeCp, h1], ?_⟩
    simp [utf8Step, h1]
  · by_cases h2 : c < 0x800
    · have hd1 : 2 ≤ c / 64 := (Nat.le_div_iff_mul_le (by norm_num)).2 (by omega)
      have hd2 : c / 64 < 32 := Nat.div_lt_of_lt_mul (by omega)
      have hm : c % 64 < 64 := Nat.mod_lt _ (by norm_num)
      refine ⟨0xC0 + c / 64, [0x80 + c % 64],
        by simp [utf8EncodeCp, h1, h2], ?_⟩
      have hcont : isCont (0x80 + c % 64) = true := by
        simp [isCont]; omega
      have heq : (0xC0 + c / 64 - 0xC0) * 64 + (0x80 + c % 64 - 0x80) = c := by
        have := Nat.div_add_mod c 64
        omega
      simp only [List.cons_append, List.nil_append, utf8Step]
      rw [if_neg (by omega), if_neg (by omega), if_pos (by omega)]
      rw [if_pos (by simp [hcont]), heq]
    · by_cases h3 : c < 0x10000
      · have hd1 : c / 4096 < 16 := Nat.div_lt_of_lt_mul (by omega)
        have hm2 : (c / 64) % 64 < 64 := Nat.mod_lt _ (by norm_num)
        have hm3 : c % 64 < 64 := Nat.mod_lt _ (by norm_num)
        refine ⟨0xE0 + c / 4096, [0x80 + (c / 64) % 64, 0x80 + c % 64],
          by simp [utf8EncodeCp, h1, h2, h3], ?_⟩
        have hcont2 : isCont (0x80 + (c / 64) % 64) = true := by
          simp [isCont]; omega
        have hcont3 : isCont (0x80 + c % 64) = true := by
          simp [isCont]; omega
        have hdm : c / 64 / 64 = c / 4096 := by
          rw [Nat.div_div_eq_div_mul]
        have heq : (0xE0 + c / 4096 - 0xE0) * 4096 +
            (0x80 + (c / 64) % 64 - 0x80) * 64 + (0x80 + c % 64 - 0x80) = c := by
          have e1 := Nat.div_add_mod c 64
          have e2 := Nat.div_add_mod (c / 64) 64
          rw [hdm] at e2
          omega
        simp only [List.cons_append, List.nil_append, utf8Step]
        rw [if_neg (by omega), if_neg (by omega), if_neg (by omega),
          if_pos (by omega)]
        rw [if_pos (by simp [hcont2, hcont3]), heq]
      · have hd1 : c / 262144 < 8 := Nat.div_lt_of_lt_mul (by omega)
        have hm2 : (c / 4096) % 64 < 64 := Nat.mod_lt _ (by norm_num)
        have hm3 : (c / 64) % 64 < 64 := Nat.mod_lt _ (by norm_num)
        have hm4 : c % 64 < 64 := Nat.mod_lt _ (by norm_num)
        refine ⟨0xF0 + c / 262144,
          [0x80 + (c / 4096) % 64, 0x80 + (c / 64) % 64, 0x80 + c % 64],
          by simp [utf8EncodeCp, h1, h2, h3], ?_⟩
        have hcont2 : isCont (0x80 + (c / 4096) % 64) = true := by
          simp [isCont]; omega
        have hcont3 : isCont (0x80 + (c / 64) % 64) = true := by
          simp [isCont]; omega
        have hcont4 : isCont (0x80 + c % 64) = true := by
          simp [isCont]; omega
        have hdm1 : c / 64 / 64 = c / 4096 := by
          rw [Nat.div_div_eq_div_mul]
        have hdm2 : c / 4096 / 64 = c / 262144 := by
          rw [Nat.div_div_eq_div_mul]
        have heq : (0xF0 + c / 262144 - 0xF0) * 262144 +
            (0x80 + (c / 4096) % 64 - 0x80) * 4096 +
            (0x80 + (c / 64) % 64 - 0x80) * 64 + (0x80 + c % 64 - 0x80) = c := by
          have e1 := Nat.div_add_mod c 64
          have e2 := Nat.div_add_mod (c / 64) 64
          have e3 := Nat.div_add_mod (c / 4096) 64
          rw [hdm1] at e2
          rw [hdm2] at e3
          omega
        simp only [List.cons_append, List.nil_append, utf8Step]
        rw [if_neg (by omega), if_neg (by omega), if_neg (by omega),
          if_neg (by omega)]
        rw [if_pos (by simp [hcont2, hcont3, hcont4]), heq]

/-- Key UTF-8 lemma: decoding the encoding of a valid scalar, followed by any
byte tail, yields that scalar followed by the decoding of the tail. -/
theorem utf8Decode_encodeCp_append (c : Nat) (hc : ValidScalar c)
    (bs : List Nat) :
    utf8Decode (utf8EncodeCp c ++ bs) = c :: utf8Decode bs := by
  obtain ⟨h, t, henc, hstep⟩ := utf8Step_encodeCp c hc bs
  rw [henc, List.cons_append, utf8Decode_cons, hstep]

/-- List version of the UTF-8 round trip (with arbitrary tail). -/
theorem utf8Decode_encodeList_append (cs : List Nat)
    (h : ∀ c ∈ cs, ValidScalar c) (bs : List Nat) :
    utf8Decode (utf8EncodeList cs ++ bs) = cs ++ utf8Decode bs := by
  induction cs with
  | nil => simp [utf8EncodeList]
  | cons c t ih =>
      have hc : ValidScalar c := h c (List.mem_cons_self _ _)
      have ht : ∀ x ∈ t, ValidScalar x :=
        fun x hx => h x (List.mem_cons_of_mem _ hx)
      simp only [utf8EncodeList, List.flatMap_cons, List.append_assoc]
      rw [utf8Decode_encodeCp_append c hc, ← utf8EncodeList, ih ht]
      rfl

/-- UTF-8 round trip on well-formed text. -/
theorem utf8Decode_encodeList (cs : List Nat)
    (h : ∀ c ∈ cs, ValidScalar c) :
    utf8Decode (utf8EncodeList cs) = cs := by
  have := utf8Decode_encodeList_append cs h []
  simpa [utf8Decode_nil] using this

/-- Every byte produced by the UTF-8 encoder of a valid scalar is below 256. -/
theorem utf8EncodeCp_lt_256 (c : Nat) (hc : ValidScalar c) :
    ∀ b ∈ utf8EncodeCp c, b < 256 := by
  obtain ⟨hlt, -⟩ := hc
  intro b hb
  unfold utf8EncodeCp at hb
  split_ifs at hb with h1 h2 h3
  · simp at hb; omega
  · have hd2 : c / 64 < 32 := Nat.div_lt_of_lt_mul (by omega)
    have hm : c % 64 < 64 := Nat.mod_lt _ (by norm_num)
    simp at hb
    rcases hb with h | h <;> omega
  · have hd1 : c / 4096 < 16 := Nat.div_lt_of_lt_mul (by omega)
    have hm2 : (c / 64) % 64 < 64 := Nat.mod_lt _ (by norm_num)
    have hm3 : c % 64 < 64 := Nat.mod_lt _ (by norm_num)
    simp at hb
    rcases hb with h | h | h <;> omega
  · have hd1 : c / 262144 < 8 := Nat.div_lt_of_lt_mul (by omega)
    have hm2 : (c / 4096) % 64 < 64 := Nat.mod_lt _ (by norm_num)
    have hm3 : (c / 64) % 64 < 64 := Nat.mod_lt _ (by norm_num)
    have hm4 : c % 64 < 64 := Nat.mod_lt _ (by norm_num)
    simp at hb
    rcases hb with h | h | h | h <;> omega

theorem utf8EncodeList_lt_256 (cs : List Nat)
    (h : ∀ c ∈ cs, ValidScalar c) :
    ∀ b ∈ utf8EncodeList cs, b < 256 := by
  intro b hb
  simp only [utf8EncodeList, List.mem_flatMap] at hb
  obtain ⟨c, hc, hbc⟩ := hb
  exact utf8EncodeCp_lt_256 c (h c hc) b hbc

theorem utf8EncodeList_append (l₁ l₂ : List Nat) :
    utf8EncodeList (l₁ ++ l₂) = utf8EncodeList l₁ ++ utf8EncodeList l₂ := by
  simp [utf8EncodeList]

/-! ## Merge rules and chunk-level BPE

Modelled from the spec: a `MergeRule` is `(leftId, rightId) → newId` with
rank equal to list position; the Encoder repeatedly finds the adjacent pair
with the lowest rank present in the chunk and replaces all its
non-overlapping occurrences, left to right. -/

/-- A merge rule: `((leftId, rightId), newId)`. -/
abbrev MergeRule := (Nat × Nat) × Nat

/-- Replace every non-overlapping occurrence of the adjacent pair `p` in
`ids` by `idx`, scanning left to right. -/
def mergePair (p : Nat × Nat) (idx : Nat) : List Nat → List Nat
  | a :: b :: rest =>
      if a = p.1 ∧ b = p.2 then idx :: mergePair p idx rest
      else a :: mergePair p idx (b :: rest)
  | other => other

/-- Does the adjacent pair `p` occur in `ids`? -/
def containsPair (p : Nat × Nat) : List Nat → Bool
  | a :: b :: rest => (decide (a = p.1) && decide (b = p.2)) ||
      containsPair p (b :: rest)
  | _ => false

/-- The merge rule of lowest rank whose pair occurs in `ids` (rules are
rank-ordered, so `find?` returns the earliest-learned applicable rule). -/
def findBest (merges : List MergeRule) (ids : List Nat) : Option MergeRule :=
  merges.find? (fun r => containsPair r.1 ids)

/-- The rank-ordered greedy merge loop, driven by fuel.  Each applied merge
strictly shortens the chunk, so `ids.length` fuel always suffices; the
wrapper `encodeChunk` supplies it. -/
def encodeChunkGo (merges : List MergeRule) : Nat → List Nat → List Nat
  | 0, ids => ids
  | fuel + 1, ids =>
      match findBest merges ids with
      | none => ids
      | some r => encodeChunkGo merges fuel (mergePair r.1 r.2 ids)

/-- BPE-encode one chunk of byte ids (spec 4.2 step 4). -/
def encodeChunk (merges : List MergeRule) (ids : List Nat) : List Nat :=
  encodeChunkGo merges ids.length ids

/-- Elements of a merged chunk: the new id or an old element. -/
theorem mem_mergePair (p : Nat × Nat) (idx : Nat) :
    ∀ ids, ∀ x ∈ mergePair p idx ids, x = idx ∨ x ∈ ids
  | [], x, hx => by simp [mergePair] at hx
  | [a], x, hx => by simp [mergePair] at hx; simp [hx]
  | a :: b :: rest, x, hx => by
      rw [mergePair] at hx
      split_ifs at hx with h
      · rcases List.mem_cons.1 hx with h1 | h1
        · exact Or.inl h1
        · rcases mem_mergePair p idx rest x h1 with h2 | h2
          · exact Or.inl h2
          · exact Or.inr (by simp [h2])
      · rcases List.mem_cons.1 hx with h1 | h1
        · exact Or.inr (by simp [h1])
        · rcases mem_mergePair p idx (b :: rest) x h1 with h2 | h2
          · exact Or.inl h2
          · rcases List.mem_cons.1 h2 with h3 | h3
            · exact Or.inr (by simp [h3])
            · exact Or.inr (by simp [h3])

/-- Merging never lengthens the chunk. -/
theorem mergePair_length_le (p : Nat × Nat) (idx : Nat) :
    ∀ ids, (mergePair p idx ids).length ≤ ids.length
  | [] => by simp [mergePair]
  | [a] => by simp [mergePair]
  | a :: b :: rest => by
      rw [mergePair]
      split_ifs with hab
      · have := mergePair_length_le p idx rest
        simp only [List.length_cons]
        omega
      · have := mergePair_length_le p idx (b :: rest)
        simp only [List.length_cons] at *
        omega

/-- If the pair occurs, merging strictly shortens the chunk. -/
theorem mergePair_length_lt (p : Nat × Nat) (idx : Nat) :
    ∀ ids, containsPair p ids = true →
      (mergePair p idx ids).length < ids.length
  | [], h => by simp [containsPair] at h
  | [a], h => by simp [containsPair] at h
  | a :: b :: rest, h => by
      rw [mergePair]
      split_ifs with hab
      · have hle : (mergePair p idx rest).length ≤ rest.length :=
          mergePair_length_le p idx rest
        simp only [List.length_cons]
        omega
      · rw [containsPair] at h
        have hpair : ¬(decide (a = p.1) && decide (b = p.2)) = true := by
          simp only [Bool.and_eq_true, decide_eq_true_eq]
          exact fun hc => hab ⟨hc.1, hc.2⟩
        have h' : containsPair p (b :: rest) = true := by
          rcases Bool.or_eq_true_iff.1 h with h1 | h1
          · exact absurd h1 hpair
          · exact h1
        have := mergePair_length_lt p idx (b :: rest) h'
        simp only [List.length_cons] at *
        omega

/-! ## ByteVocabulary replay

Modelled from the spec (4.5): import rebuilds ByteVocabulary by replaying
the MergeTable in rank order starting from the 256 singleton byte
sequences; a rule whose parent id is absent fails the replay (the Python
replay raises a `KeyError`, surfacing as an exception). -/

/-- The 256 singleton base entries. -/
def baseVocab : List (Nat × List Nat) :=
  (List.range 256).map (fun i => (i, [i]))

/-- One replay step: `vocab[idx] = vocab[p0] + vocab[p1]`; `none` models
the `KeyError` raised when a parent id is missing. -/
def buildStep (v : List (Nat × List Nat)) (r : MergeRule) :
    Option (List (Nat × List Nat)) :=
  match dlookup v r.1.1, dlookup v r.1.2 with
  | some v1, some v2 => some (dinsert v r.2 (v1 ++ v2))
  | _, _ => none

/-- Replay the merge table over the base vocabulary. -/
def buildVocab (merges : List MergeRule) : Option (List (Nat × List Nat)) :=
  merges.foldlM buildStep baseVocab

theorem dlookup_baseVocab (b : Nat) (hb : b < 256) :
    dlookup baseVocab b = some [b] := by
  have : ∀ n k, k < n → dlookup ((List.range n).map (fun i => (i, [i]))) k
      = some [k] := by
    intro n
    induction n with
    | zero => intro k hk; omega
    | succ m ih =>
        intro k hk
        rw [List.range_succ, List.map_append]
        rw [dlookup_append]
        by_cases h : k < m
        · rw [ih k h]; rfl
        · have : k = m := by omega
          subst this
          rw [dlookup_eq_none_of_not_mem]
          · simp [dlookup_cons]
          · intro p hp
            simp only [List.mem_map, List.mem_range] at hp
            obtain ⟨i, hi, rfl⟩ := hp
            simp only
            omega
  exact this 256 b hb

theorem mem_baseVocab (p : Nat × List Nat) (hp : p ∈ baseVocab) :
    p.1 < 256 := by
  simp only [baseVocab, List.mem_map, List.mem_range] at hp
  obtain ⟨i, hi, rfl⟩ := hp
  exact hi

/-- Inserting a fresh key appends it at the end. -/
theorem dinsert_of_fresh (l : List (κ × α)) (k : κ) (v : α)
    (h : ∀ p ∈ l, p.1 ≠ k) : dinsert l k v = l ++ [(k, v)] := by
  have hany : l.any (fun p => p.1 = k) = false := by
    rw [List.any_eq_false]
    intro p hp
    simpa using h p hp
  simp [dinsert, hany]

/-- Appending a fresh entry preserves existing lookups. -/
theorem dlookup_append_of_some (l₁ l₂ : List (κ × α)) (k : κ) (x : α)
    (h : dlookup l₁ k = some x) : dlookup (l₁ ++ l₂) k = some x := by
  rw [dlookup_append, h]
  rfl

/-- Well-formed merge table: result ids are contiguous from 256 and each
rule's parents are earlier ids (spec 3, MergeRule invariant). -/
def WFMerges (ms : List MergeRule) : Prop :=
  ∀ k (h : k < ms.length),
    (ms.get ⟨k, h⟩).2 = 256 + k ∧
    (ms.get ⟨k, h⟩).1.1 < 256 + k ∧ (ms.get ⟨k, h⟩).1.2 < 256 + k

instance (ms : List MergeRule) : Decidable (WFMerges ms) := by
  unfold WFMerges
  infer_instance

/-- Replay invariant, generalized over a partially-built vocabulary. -/
theorem buildVocab_go (rem : List MergeRule) :
    ∀ (n : Nat) (acc : List (Nat × List Nat)),
    (∀ k (h : k < rem.length),
      (rem.get ⟨k, h⟩).2 = 256 + n + k ∧
      (rem.get ⟨k, h⟩).1.1 < 256 + n + k ∧
      (rem.get ⟨k, h⟩).1.2 < 256 + n + k) →
    (∀ k, k < 256 + n → (dlookup acc k).isSome) →
    (∀ p ∈ acc, p.1 < 256 + n) →
    ∃ v, rem.foldlM buildStep acc = some v ∧
      (∀ k x, dlookup acc k = some x → dlookup v k = some x) ∧
      (∀ k, k < 256 + n + rem.length → (dlookup v k).isSome) ∧
      (∀ p ∈ v, p.1 < 256 + n + rem.length) ∧
      (∀ r ∈ rem, ∃ v1 v2, dlookup v r.1.1 = some v1 ∧
        dlookup v r.1.2 = some v2 ∧ dlookup v r.2 = some (v1 ++ v2)) := by
  induction rem with
  | nil =>
      intro n acc _ htot hkeys
      refine ⟨acc, by simp, fun k x h => h, ?_, ?_, by simp⟩
      · intro k hk
        exact htot k (by simpa using hk)
      · intro p hp
        have := hkeys p hp
        simpa using this
  | cons r rem ih =>
      intro n acc hWF htot hkeys
      have hr := hWF 0 (by simp)
      simp only [List.get] at hr
      obtain ⟨hres, hp1, hp2⟩ := hr
      obtain ⟨v1, hv1⟩ := Option.isSome_iff_exists.1 (htot r.1.1 (by omega))
      obtain ⟨v2, hv2⟩ := Option.isSome_iff_exists.1 (htot r.1.2 (by omega))
      have hfresh : ∀ p ∈ acc, p.1 ≠ r.2 := by
        intro p hp
        have := hkeys p hp
        omega
      have hstep : buildStep acc r = some (acc ++ [(r.2, v1 ++ v2)]) := by
        rw [buildStep, hv1, hv2]
        dsimp only
        rw [dinsert_of_fresh acc r.2 (v1 ++ v2) hfresh]
      have hpres : ∀ k x, dlookup acc k = some x →
          dlookup (acc ++ [(r.2, v1 ++ v2)]) k = some x :=
        fun k x h => dlookup_append_of_some _ _ k x h
      have hnew : dlookup (acc ++ [(r.2, v1 ++ v2)]) r.2 = some (v1 ++ v2) := by
        rw [dlookup_append, dlookup_eq_none_of_not_mem acc r.2 hfresh]
        simp [dlookup_cons]
      have hWF' : ∀ k (h : k < rem.length),
          (rem.get ⟨k, h⟩).2 = 256 + (n + 1) + k ∧
          (rem.get ⟨k, h⟩).1.1 < 256 + (n + 1) + k ∧
          (rem.get ⟨k, h⟩).1.2 < 256 + (n + 1) + k := by
        intro k hk
        have := hWF (k + 1) (by simpa using Nat.succ_lt_succ hk)
        simp only [List.get] at this
        refine ⟨?_, ?_, ?_⟩ <;> (obtain ⟨a, b, c⟩ := this) <;> omega
      have htot' : ∀ k, k < 256 + (n + 1) →
          (dlookup (acc ++ [(r.2, v1 ++ v2)]) k).isSome := by
        intro k hk
        by_cases h : k < 256 + n
        · obtain ⟨x, hx⟩ := Option.isSome_iff_exists.1 (htot k h)
          rw [hpres k x hx]
          rfl
        · have : k = r.2 := by omega
          rw [this, hnew]
          rfl
      have hkeys' : ∀ p ∈ acc ++ [(r.2, v1 ++ v2)], p.1 < 256 + (n + 1) := by
        intro p hp
        rcases List.mem_append.1 hp with h | h
        · have := hkeys p h
          omega
        · simp at h
          subst h
          omega
      obtain ⟨v, hfold, hmono, htotv, hkeysv, hrules⟩ :=
        ih (n + 1) (acc ++ [(r.2, v1 ++ v2)]) hWF' htot' hkeys'
      refine ⟨v, ?_, ?_, ?_, ?_, ?_⟩
      · rw [List.foldlM_cons, hstep]
        exact hfold
      · intro k x h
        exact hmono k x (hpres k x h)
      · intro k hk
        exact htotv k (by simp at hk ⊢; omega)
      · intro p hp
        have := hkeysv p hp
        simp at this ⊢
        omega
      · intro r' hr'
        rcases List.mem_cons.1 hr' with h | h
        · subst h
          exact ⟨v1, v2, hmono _ _ (hpres _ _ hv1), hmono _ _ (hpres _ _ hv2),
            hmono _ _ hnew⟩
        · exact hrules r' h

/-- Replaying a well-formed merge table succeeds and yields a vocabulary
satisfying the ByteVocabulary invariant. -/
theorem buildVocab_wf (ms : List MergeRule) (hWF : WFMerges ms) :
    ∃ v, buildVocab ms = some v ∧
      (∀ b, b < 256 → dlookup v b = some [b]) ∧
      (∀ p ∈ v, p.1 < 256 + ms.length) ∧
      (∀ r ∈ ms, ∃ v1 v2, dlookup v r.1.1 = some v1 ∧
        dlookup v r.1.2 = some v2 ∧ dlookup v r.2 = some (v1 ++ v2)) := by
  have hWF0 : ∀ k (h : k < ms.length),
      (ms.get ⟨k, h⟩).2 = 256 + 0 + k ∧
      (ms.get ⟨k, h⟩).1.1 < 256 + 0 + k ∧
      (ms.get ⟨k, h⟩).1.2 < 256 + 0 + k := by
    intro k hk
    have := hWF k hk
    refine ⟨?_, ?_, ?_⟩ <;> (obtain ⟨a, b, c⟩ := this) <;> omega
  have htot : ∀ k, k < 256 + 0 → (dlookup baseVocab k).isSome := by
    intro k hk
    rw [dlookup_baseVocab k (by omega)]
    rfl
  have hkeys : ∀ p ∈ baseVocab, p.1 < 256 + 0 := by
    intro p hp
    have := mem_baseVocab p hp
    omega
  obtain ⟨v, hfold, hmono, htotv, hkeysv, hrules⟩ :=
    buildVocab_go ms 0 baseVocab hWF0 htot hkeys
  refine ⟨v, hfold, ?_, ?_, hrules⟩
  · intro b hb
    exact hmono b [b] (dlookup_baseVocab b hb)
  · intro p hp
    have := hkeysv p hp
    omega

/-! ## Vocabulary-level decoding and merge preservation -/

/-- Concatenate the byte sequences of a token-id list; `none` if any id is
absent from the vocabulary. -/
def vdecode (vocab : List (Nat × List Nat)) : List Nat → Option (List Nat)
  | [] => some []
  | i :: rest =>
      match dlookup vocab i, vdecode vocab rest with
      | some bs, some tl => some (bs ++ tl)
      | _, _ => none

/-- Applying one merge rule whose vocabulary entry is the concatenation of
its parents' entries does not change the decoded byte sequence. -/
theorem vdecode_mergePair (vocab : List (Nat × List Nat)) (p : Nat × Nat)
    (idx : Nat) (v1 v2 : List Nat)
    (h1 : dlookup vocab p.1 = some v1) (h2 : dlookup vocab p.2 = some v2)
    (h3 : dlookup vocab idx = some (v1 ++ v2)) :
    ∀ ids, vdecode vocab (mergePair p idx ids) = vdecode vocab ids
  | [] => rfl
  | [a] => rfl
  | a :: b :: rest => by
      rw [mergePair]
      split_ifs with hab
      · obtain ⟨ha, hb⟩ := hab
        subst ha
        subst hb
        rw [vdecode, vdecode_mergePair vocab p idx v1 v2 h1 h2 h3 rest, h3]
        rw [vdecode, h1, vdecode, h2]
        cases hrest : vdecode vocab rest with
        | none => rfl
        | some tl => simp
      · rw [vdecode, vdecode_mergePair vocab p idx v1 v2 h1 h2 h3 (b :: rest)]
        rfl

/-- The greedy merge loop preserves the decoded byte sequence, for any
vocabulary satisfying the ByteVocabulary invariant. -/
theorem vdecode_encodeChunkGo (vocab : List (Nat × List Nat))
    (merges : List MergeRule)
    (hinv : ∀ r ∈ merges, ∃ v1 v2, dlookup vocab r.1.1 = some v1 ∧
      dlookup vocab r.1.2 = some v2 ∧ dlookup vocab r.2 = some (v1 ++ v2)) :
    ∀ fuel ids, vdecode vocab (encodeChunkGo merges fuel ids) =
      vdecode vocab ids := by
  intro fuel
  induction fuel with
  | zero => intro ids; rfl
  | succ f ih =>
      intro ids
      rw [encodeChunkGo]
      cases hfind : findBest merges ids with
      | none => rfl
      | some r =>
          have hmem : r ∈ merges := List.mem_of_find?_eq_some hfind
          obtain ⟨v1, v2, h1, h2, h3⟩ := hinv r hmem
          rw [ih (mergePair r.1 r.2 ids),
            vdecode_mergePair vocab r.1 r.2 v1 v2 h1 h2 h3 ids]

/-- All ids in the output of the merge loop stay below the id bound. -/
theorem encodeChunkGo_lt (merges : List MergeRule) (L : Nat)
    (hL : ∀ r ∈ merges, r.2 < L) :
    ∀ fuel ids, (∀ i ∈ ids, i < L) →
      ∀ j ∈ encodeChunkGo merges fuel ids, j < L := by
  intro fuel
  induction fuel with
  | zero => intro ids h j hj; exact h j hj
  | succ f ih =>
      intro ids h j hj
      rw [encodeChunkGo] at hj
      cases hfind : findBest merges ids with
      | none =>
          rw [hfind] at hj
          exact h j hj
      | some r =>
          rw [hfind] at hj
          refine ih (mergePair r.1 r.2 ids) ?_ j hj
          intro i hi
          rcases mem_mergePair r.1 r.2 ids i hi with h1 | h1
          · subst h1
            exact hL r (List.mem_of_find?_eq_some hfind)
          · exact h i h1

/-- Decoding a list of base ids present as singletons. -/
theorem vdecode_of_singletons (vocab : List (Nat × List Nat)) :
    ∀ bs, (∀ b ∈ bs, dlookup vocab b = some [b]) →
      vdecode vocab bs = some bs
  | [], _ => rfl
  | b :: rest, h => by
      rw [vdecode, h b (List.mem_cons_self _ _),
        vdecode_of_singletons vocab rest
          (fun x hx => h x (List.mem_cons_of_mem _ hx))]
      rfl

/-! ## Tokenizer state

The model of a `minbpe` tokenizer object as manipulated by the wrapper.
All three variants always carry `merges`, `special_tokens` and `pattern`
attributes (the library base class initializes them), so these fields are
total; only the GPT-4 variant carries a `byte_shuffle`, so that field is an
`Option` mirroring the wrapper's `hasattr` checks. -/

inductive TokType where
  | basic
  | regex
  | gpt4
deriving DecidableEq, Repr

@[ext]
structure Tokenizer where
  typ : TokType
  merges : List MergeRule
  specialTokens : List (List Nat × Nat)
  pattern : String
  vocab : List (Nat × List Nat)
  byteShuffle : Option (List (Nat × Nat))
  inverseByteShuffle : Option (List (Nat × Nat))
deriving DecidableEq, Repr

/-- Modelled from the spec: the pretrained variant's fixed split-pattern
source.  The literal regex text lives in the external library; only its
identity and non-emptiness matter here. -/
def gpt4SplitPattern : String := "GPT4_SPLIT_PATTERN"

/-- Modelled from the spec: the pretrained variant's fixed MergeTable.  The
real table is recovered from the external pretrained vocabulary; any fixed
non-empty well-formed table represents it. -/
def gpt4Merges : List MergeRule := [((32, 32), 256), ((32, 256), 257)]

/-- Helper: code points of a Lean string. -/
def strCps (s : String) : List Nat := s.data.map Char.toNat

/-- Modelled from the spec: the pretrained variant's special tokens, with
ids above the merge-id range. -/
def gpt4SpecialTokens : List (List Nat × Nat) :=
  [(strCps "<|endoftext|>", 100257)]

/-- Modelled from the spec: the pretrained variant's fixed 256-entry byte
permutation.  The real table comes from the external pretrained vocabulary;
any fixed bijection on `[0,255]` represents it. -/
def gpt4ShuffleTable : List (Nat × Nat) :=
  (List.range 256).map (fun i => (i, 255 - i))

/-- `{v: k for k, v in d.items()}` — invert a dict (cli.py line 91). -/
def invertDict (l : List (Nat × Nat)) : List (Nat × Nat) :=
  l.foldl (fun acc p => dinsert acc p.2 p.1) []

/-- `create_tokenizer` (cli.py lines 33-42): construct a fresh instance by
variant name.  Constructor defaults are modelled from the spec: Basic has
no merges/specials/pattern; Regex carries the fixed default split pattern;
GPT-4 carries the pretrained table, specials, pattern and byte shuffle with
its precomputed inverse. -/
def create_tokenizer : TokType → Tokenizer
  | TokType.basic =>
      { typ := TokType.basic, merges := [], specialTokens := [],
        pattern := "", vocab := baseVocab,
        byteShuffle := none, inverseByteShuffle := none }
  | TokType.regex =>
      { typ := TokType.regex, merges := [], specialTokens := [],
        pattern := gpt4SplitPattern, vocab := baseVocab,
        byteShuffle := none, inverseByteShuffle := none }
  | TokType.gpt4 =>
      { typ := TokType.gpt4, merges := gpt4Merges,
        specialTokens := gpt4SpecialTokens, pattern := gpt4SplitPattern,
        vocab := (buildVocab gpt4Merges).getD baseVocab,
        byteShuffle := some gpt4ShuffleTable,
        inverseByteShuffle := some (invertDict gpt4ShuffleTable) }

/-! ## SpecialTokenSplitter (modelled from the spec, 4.4): partition input
into special / non-special segments by longest-match-first scanning. -/

inductive Seg where
  | raw : List Nat → Seg
  | special : List Nat → Nat → Seg
deriving DecidableEq, Repr

/-- Is the first list a prefix of the second? -/
def isPrefOf : List Nat → List Nat → Bool
  | [], _ => true
  | _ :: _, [] => false
  | t :: ts, c :: cs => decide (t = c) && isPrefOf ts cs

/-- Longest wins; the first-registered token wins ties. -/
def pickLonger (p q : List Nat × Nat) : List Nat × Nat :=
  if p.1.length < q.1.length then q else p

/-- One scanning-fold step: keep the better of the accumulated candidate
and the next registered token, considering only non-empty matching ones. -/
def lmStep (s : List Nat) (acc : Option (List Nat × Nat))
    (p : List Nat × Nat) : Option (List Nat × Nat) :=
  if p.1 ≠ [] ∧ isPrefOf p.1 s then
    match acc with
    | none => some p
    | some q => some (pickLonger q p)
  else acc

/-- The longest registered non-empty special token that is a prefix of `s`
(longest-match-first; deterministic when one token is a prefix of
another). -/
def longestMatch (specials : List (List Nat × Nat)) (s : List Nat) :
    Option (List Nat × Nat) :=
  specials.foldl (lmStep s) none

/-- Prepend a non-special code point to the segment list. -/
def consRaw (c : Nat) : List Seg → List Seg
  | Seg.raw s :: rest => Seg.raw (c :: s) :: rest
  | segs => Seg.raw [c] :: segs

/-- Fuel-driven scanner; each step consumes at least one code point, so
`text.length` fuel suffices (exhausted fuel dumps the rest unsplit, which
never happens with adequate fuel). -/
def scanSpecialGo (specials : List (List Nat × Nat)) :
    Nat → List Nat → List Seg
  | _, [] => []
  | 0, rest => [Seg.raw rest]
  | fuel + 1, c :: rest =>
      match longestMatch specials (c :: rest) with
      | some (tok, i) =>
          Seg.special tok i ::
            scanSpecialGo specials fuel (List.drop tok.length (c :: rest))
      | none => consRaw c (scanSpecialGo specials fuel rest)

def scanSpecial (specials : List (List Nat × Nat)) (text : List Nat) :
    List Seg :=
  scanSpecialGo specials text.length text

/-- Concatenation of the scanned segments. -/
def joinSegs : List Seg → List Nat
  | [] => []
  | Seg.raw s :: rest => s ++ joinSegs rest
  | Seg.special tok _ :: rest => tok ++ joinSegs rest

/-! ## Encoder / Decoder (modelled from the spec, 4.2 / 4.3) -/

/-- The forward byte permutation (identity when no shuffle is carried). -/
def permF (t : Tokenizer) (b : Nat) : Nat :=
  match t.byteShuffle with
  | none => b
  | some bs => (dlookup bs b).getD b

/-- The inverse byte permutation. -/
def invPermF (t : Tokenizer) (b : Nat) : Nat :=
  match t.inverseByteShuffle with
  | none => b
  | some bs => (dlookup bs b).getD b

/-- Segmenter application: without a pattern the whole span is one chunk;
with a pattern, the external regex engine (abstracted as `compile`) splits
it. -/
def chunksOfSpan (compile : String → List Nat → List (List Nat))
    (t : Tokenizer) (span : List Nat) : List (List Nat) :=
  if t.pattern = "" then [span] else compile t.pattern span

/-- Encode one segment: a special span emits its id directly; a raw span
is segmented, converted to (permuted) bytes, and greedily merged. -/
def encodeSeg (compile : String → List Nat → List (List Nat))
    (t : Tokenizer) : Seg → List Nat
  | Seg.special _ i => [i]
  | Seg.raw span =>
      (chunksOfSpan compile t span).flatMap
        (fun chunk =>
          encodeChunk t.merges ((utf8EncodeList chunk).map (permF t)))

/-- `encode`: split on special tokens, segment, convert to (permuted)
bytes, and greedily merge each chunk by rank. -/
def encodeText (compile : String → List Nat → List (List Nat))
    (t : Tokenizer) (text : List Nat) : List Nat :=
  (scanSpecial t.specialTokens text).flatMap (encodeSeg compile t)

/-- Reverse special-token lookup by id. -/
def specialById (specials : List (List Nat × Nat)) (i : Nat) :
    Option (List Nat) :=
  (specials.find? (fun p => p.2 = i)).map Prod.fst

/-- The bytes one id contributes to the decode buffer: a special id emits
its literal string's UTF-8 bytes; a vocabulary id emits its byte sequence,
inverse-permuted; an unknown id is a hard failure. -/
def idBytes (t : Tokenizer) (i : Nat) : Option (List Nat) :=
  match specialById t.specialTokens i with
  | some tok => some (utf8EncodeList tok)
  | none => (dlookup t.vocab i).map (fun bs => bs.map (invPermF t))

/-- Accumulate the byte buffer over the id sequence; any invalid id fails
the whole decode. -/
def decodeBuffer (t : Tokenizer) : List Nat → Option (List Nat)
  | [] => some []
  | i :: rest =>
      match idBytes t i, decodeBuffer t rest with
      | some bs, some tl => some (bs ++ tl)
      | _, _ => none

/-- `decode`: build the byte buffer, then decode it as UTF-8 with the
replacement-character policy.  `none` models the hard `MalformedInput`
failure on an id outside the valid range. -/
def decodeText (t : Tokenizer) (ids : List Nat) : Option (List Nat) :=
  (decodeBuffer t ids).map utf8Decode

/-! ## Trainer (modelled from the spec, 4.1) -/

/-- All adjacent pairs of a chunk, in order (with multiplicity). -/
def adjPairs : List Nat → List (Nat × Nat)
  | a :: b :: rest => (a, b) :: adjPairs (b :: rest)
  | _ => []

/-- Pair statistics pooled across chunks (merges never cross a chunk
boundary). -/
def pairsOf (chunks : List (List Nat)) : List (Nat × Nat) :=
  chunks.flatMap adjPairs

/-- Numerically-smallest pair, ordering by left id then right id. -/
def lexMin (p q : Nat × Nat) : Nat × Nat :=
  if p.1 < q.1 then p
  else if q.1 < p.1 then q
  else if p.2 ≤ q.2 then p else q

/-- The better of two candidate pairs: higher count wins; ties break to the
numerically smallest pair (the spec's load-bearing tie-break). -/
def better (cnt : Nat × Nat → Nat) (p q : Nat × Nat) : Nat × Nat :=
  if cnt q < cnt p then p
  else if cnt p < cnt q then q
  else lexMin p q

/-- One selection-fold step over the pooled pair statistics. -/
def selStep (cnt : Nat × Nat → Nat) (acc : Option (Nat × Nat))
    (p : Nat × Nat) : Option (Nat × Nat) :=
  match acc with
  | none => some p
  | some q => some (better cnt q p)

/-- Occurrence count of a pair in the pooled statistics. -/
def countPair : List (Nat × Nat) → (Nat × Nat) → Nat
  | [], _ => 0
  | p :: rest, x => (if p = x then 1 else 0) + countPair rest x

/-- Select the most frequent adjacent pair across all chunks (`none` when
no adjacent pair remains). -/
def selectBest (chunks : List (List Nat)) : Option (Nat × Nat) :=
  (pairsOf chunks).foldl (selStep (countPair (pairsOf chunks))) none

/-- The training loop: repeatedly select the best pair, assign it the next
sequential id, and replace its occurrences in every chunk. -/
def trainLoop : Nat → List (List Nat) → List MergeRule → List MergeRule
  | 0, _, acc => acc
  | n + 1, chunks, acc =>
      match selectBest chunks with
      | none => acc
      | some p =>
          trainLoop n (chunks.map (mergePair p (256 + acc.length)))
            (acc ++ [(p, 256 + acc.length)])

/-- Chunks fed to the trainer: split by pattern, then (permuted) bytes. -/
def trainChunksOf (compile : String → List Nat → List (List Nat))
    (t : Tokenizer) (text : List Nat) : List (List Nat) :=
  (if t.pattern = "" then [text] else compile t.pattern text).map
    (fun chunk => (utf8EncodeList chunk).map (permF t))

/-- `train(text, vocab_size)`: requires `vocab_size ≥ 256`
(InvalidConfiguration otherwise), learns `vocab_size - 256` merges, and
rebuilds the vocabulary by replay. -/
def trainTokenizer (compile : String → List Nat → List (List Nat))
    (t : Tokenizer) (text : List Nat) (vocabSize : Nat) :
    Except String Tokenizer :=
  if vocabSize < 256 then
    Except.error "InvalidConfiguration: vocab size below 256"
  else
    let ms := trainLoop (vocabSize - 256) (trainChunksOf compile t text) []
    Except.ok { t with merges := ms, vocab := (buildVocab ms).getD baseVocab }

/-! ## The wrapper's config codec (translated from cli.py) -/

/-- The persisted configuration record.  `Option` fields model JSON key
presence; `metadata` records only the presence of the metadata object. -/
structure Config where
  typ : TokType
  vocab_size : Option Nat
  merges : Option (List MergeRule)
  special_tokens : Option (List (List Nat × Nat))
  pattern : Option String
  metadata : Bool
  byte_shuffle : Option (List (Nat × Nat))
deriving DecidableEq, Repr

/-- The keys of the config record, in dict insertion order. -/
def configKeys (c : Config) : List String :=
  ["type"] ++
  (if c.vocab_size.isSome then ["vocab_size"] else []) ++
  (if c.merges.isSome then ["merges"] else []) ++
  (if c.special_tokens.isSome then ["special_tokens"] else []) ++
  (if c.pattern.isSome then ["pattern"] else []) ++
  (if c.metadata then ["metadata"] else []) ++
  (if c.byte_shuffle.isSome then ["byte_shuffle"] else [])

/-- `export_tokenizer_config(tokenizer, tokenizer_type)` (cli.py lines
44-62): all tokenizers carry `merges`, `special_tokens` and `pattern`
attributes, so the `hasattr` fallbacks never fire; `byte_shuffle` is added
only for the gpt4 variant when the attribute exists. -/
def export_tokenizer_config (t : Tokenizer) (typ : TokType) : Config :=
  { typ := typ,
    vocab_size := some t.vocab.length,
    merges := some t.merges,
    special_tokens := some t.specialTokens,
    pattern := some t.pattern,
    metadata := true,
    byte_shuffle := if typ = TokType.gpt4 then t.byteShuffle else none }

/-- Step 1 (cli.py lines 70-72): `if "merges" in config and
config["merges"]:` — set the merges dict and rebuild the vocabulary by
replay; a replay failure is an escaping exception. -/
def loadMerges (c : Config) (t0 : Tokenizer) : Option Tokenizer :=
  match c.merges with
  | some (m :: ms) =>
      match buildVocab (dictOfList (m :: ms)) with
      | some v => some { t0 with merges := dictOfList (m :: ms), vocab := v }
      | none => none
  | _ => some t0

/-- Step 2 (cli.py lines 75-79): set special tokens when present and
non-empty. -/
def loadSpecials (c : Config) (t : Tokenizer) : Tokenizer :=
  match c.special_tokens with
  | some (s :: ss) => { t with specialTokens := s :: ss }
  | _ => t

/-- Step 3 (cli.py lines 82-86): set the pattern when present and
non-empty. -/
def loadPattern (c : Config) (t : Tokenizer) : Tokenizer :=
  match c.pattern with
  | some p => if p ≠ "" then { t with pattern := p } else t
  | none => t

/-- Step 4 (cli.py lines 89-91): for gpt4, when the `byte_shuffle` key is
present, set it and recompute the inverse from the stored forward table. -/
def loadShuffle (c : Config) (t : Tokenizer) : Tokenizer :=
  if c.typ = TokType.gpt4 then
    match c.byte_shuffle with
    | some bs =>
        { t with byteShuffle := some bs,
                 inverseByteShuffle := some (invertDict bs) }
    | none => t
  else t

/-- `load_tokenizer_from_config(config)` (cli.py lines 64-93): build a
fresh tokenizer, then overwrite `merges` (rebuilding the vocabulary by
replay), `special_tokens` and `pattern` when the corresponding key is
present and truthy, and for gpt4 set `byte_shuffle` when the key is
present, recomputing the inverse from the stored forward table.  `none`
models an exception escaping the function (a parent id missing during
replay). -/
def load_tokenizer_from_config (c : Config) : Option Tokenizer :=
  match loadMerges c (create_tokenizer c.typ) with
  | none => none
  | some t1 => some (loadShuffle c (loadPattern c (loadSpecials c t1)))

/-! ## Command handlers (translated from cli.py).  Each handler wraps its
body in try/except and returns a tagged result dict; I/O outcomes are
parameters of type `Except String _`. -/

structure CmdResult where
  status : String
  command : String
  implementation : String
  error : Option String
  vocab_size : Option Nat
  tokens : Option (List Nat)
  text : Option (List Nat)
  roundTrip : Option Bool
deriving DecidableEq, Repr

/-- The error result a handler returns from its `except` branch. -/
def mkError (cmd msg : String) : CmdResult :=
  { status := "error", command := cmd, implementation := "python",
    error := some msg, vocab_size := none, tokens := none, text := none,
    roundTrip := none }

/-- The train step inside `handle_train_command`: the gpt4 variant is
pretrained, so training is skipped entirely (cli.py lines 110-114). -/
def trainStep (compile : String → List Nat → List (List Nat))
    (typ : TokType) (text : List Nat) (vocabSize : Nat) :
    Except String Tokenizer :=
  if typ = TokType.gpt4 then Except.ok (create_tokenizer TokType.gpt4)
  else trainTokenizer compile (create_tokenizer typ) text vocabSize

/-- `handle_train_command` (cli.py lines 95-142). -/
def handle_train_command (compile : String → List Nat → List (List Nat))
    (typ : TokType) (vocabSize : Nat) (readText : Except String (List Nat))
    (writeOut : Except String Unit) : CmdResult :=
  match readText with
  | Except.error e => mkError "train" e
  | Except.ok text =>
      match trainStep compile typ text vocabSize with
      | Except.error e => mkError "train" e
      | Except.ok tok =>
          match writeOut with
          | Except.error e => mkError "train" e
          | Except.ok _ =>
              { status := "success", command := "train",
                implementation := "python", error := none,
                vocab_size := some tok.vocab.length, tokens := none,
                text := none, roundTrip := none }

/-- `handle_encode_command` (cli.py lines 144-189). -/
def handle_encode_command (compile : String → List Nat → List (List Nat))
    (readConfig : Except String Config)
    (readText : Except String (List Nat))
    (writeOut : Except String Unit) : CmdResult :=
  match readConfig with
  | Except.error e => mkError "encode" e
  | Except.ok cfg =>
      match load_tokenizer_from_config cfg with
      | none => mkError "encode" "KeyError during vocabulary replay"
      | some tok =>
          match readText with
          | Except.error e => mkError "encode" e
          | Except.ok text =>
              match writeOut with
              | Except.error e => mkError "encode" e
              | Except.ok _ =>
                  { status := "success", command := "encode",
                    implementation := "python", error := none,
                    vocab_size := none,
                    tokens := some (encodeText compile tok text),
                    text := none, roundTrip := none }

/-- `handle_decode_command` (cli.py lines 191-236). -/
def handle_decode_command (readConfig : Except String Config)
    (readTokens : Except String (List Nat))
    (writeOut : Except String Unit) : CmdResult :=
  match readConfig with
  | Except.error e => mkError "decode" e
  | Except.ok cfg =>
      match load_tokenizer_from_config cfg with
      | none => mkError "decode" "KeyError during vocabulary replay"
      | some tok =>
          match readTokens with
          | Except.error e => mkError "decode" e
          | Except.ok ids =>
              match decodeText tok ids with
              | none => mkError "decode" "invalid token id"
              | some cps =>
                  match writeOut with
                  | Except.error e => mkError "decode" e
                  | Except.ok _ =>
                      { status := "success", command := "decode",
                        implementation := "python", error := none,
                        vocab_size := none, tokens := none,
                        text := some cps, roundTrip := none }

/-- `handle_export_command` (cli.py lines 238-286). -/
def handle_export_command (readConfig : Except String Config)
    (vocabFlag : Bool) (writeVocab : Except String Unit)
    (writeOut : Except String Unit) : CmdResult :=
  match readConfig with
  | Except.error e => mkError "export" e
  | Except.ok cfg =>
      match load_tokenizer_from_config cfg with
      | none => mkError "export" "KeyError during vocabulary replay"
      | some tok =>
          match (if vocabFlag then writeVocab else Except.ok ()) with
          | Except.error e => mkError "export" e
          | Except.ok _ =>
              match writeOut with
              | Except.error e => mkError "export" e
              | Except.ok _ =>
                  { status := "success", command := "export",
                    implementation := "python", error := none,
                    vocab_size := some tok.vocab.length, tokens := none,
                    text := none, roundTrip := none }

/-- The probe text of `handle_load_command`. -/
def loadProbeText : List Nat := strCps "Hello, world! This is a test."

/-- `handle_load_command` (cli.py lines 288-325). -/
def handle_load_command (compile : String → List Nat → List (List Nat))
    (readConfig : Except String Config) : CmdResult :=
  match readConfig with
  | Except.error e => mkError "load" e
  | Except.ok cfg =>
      match load_tokenizer_from_config cfg with
      | none => mkError "load" "KeyError during vocabulary replay"
      | some tok =>
          let probe := encodeText compile tok loadProbeText
          match decodeText tok probe with
          | none => mkError "load" "invalid token id"
          | some decoded =>
              { status := "success", command := "load",
                implementation := "python", error := none,
                vocab_size := some tok.vocab.length,
                tokens := some probe, text := some decoded,
                roundTrip := some (decide (decoded = loadProbeText)) }

/-- `main` (cli.py lines 393-397): exit code 1 exactly when the result's
status is `"error"`. -/
def exitCodeOf (r : CmdResult) : Nat :=
  if r.status = "error" then 1 else 0

/-! ## Scanner lemmas: the special-token splitter partitions the input -/

theorem isPrefOf_drop : ∀ (t s : List Nat), isPrefOf t s = true →
    t ++ s.drop t.length = s
  | [], _, _ => rfl
  | _ :: _, [], h => by simp [isPrefOf] at h
  | a :: ts, c :: cs, h => by
      rw [isPrefOf, Bool.and_eq_true] at h
      obtain ⟨h1, h2⟩ := h
      have ha : a = c := by simpa using h1
      subst ha
      simp only [List.length_cons, List.drop_succ_cons, List.cons_append]
      rw [isPrefOf_drop ts cs h2]

/-- `pickLonger` returns one of its arguments. -/
theorem pickLonger_cases (p q : List Nat × Nat) :
    pickLonger p q = p ∨ pickLonger p q = q := by
  unfold pickLonger
  split_ifs <;> simp

/-- Fold invariant for `longestMatch`: any produced candidate is a
registered token (or the seed), non-empty, and a prefix of `s`. -/
theorem lmFold_spec (s : List Nat) :
    ∀ (sp : List (List Nat × Nat)) (acc : Option (List Nat × Nat)),
    (∀ tok i, acc = some (tok, i) → tok ≠ [] ∧ isPrefOf tok s = true) →
    ∀ tok i, sp.foldl (lmStep s) acc = some (tok, i) →
      ((tok, i) ∈ sp ∨ acc = some (tok, i)) ∧ tok ≠ [] ∧
        isPrefOf tok s = true := by
  intro sp
  induction sp with
  | nil =>
      intro acc hacc tok i h
      simp only [List.foldl_nil] at h
      exact ⟨Or.inr h, hacc tok i h⟩
  | cons p rest ih =>
      intro acc hacc tok i h
      simp only [List.foldl_cons] at h
      have hstep : ∀ tok i, lmStep s acc p = some (tok, i) →
          ((tok, i) = p ∨ acc = some (tok, i)) ∧ tok ≠ [] ∧
            isPrefOf tok s = true := by
        intro tok' i' hs
        unfold lmStep at hs
        split_ifs at hs with hcond
        · cases hc : acc with
          | none =>
              rw [hc] at hs
              have hp : p = (tok', i') := Option.some.inj hs
              subst hp
              exact ⟨Or.inl rfl, hcond.1, hcond.2⟩
          | some q =>
              rw [hc] at hs
              have hpl : pickLonger q p = (tok', i') := Option.some.inj hs
              rcases pickLonger_cases q p with he | he
              · rw [he] at hpl
                have hq : some q = some (tok', i') := congrArg some hpl
                exact ⟨Or.inr hq, hacc tok' i' (hc.trans hq)⟩
              · rw [he] at hpl
                subst hpl
                exact ⟨Or.inl rfl, hcond.1, hcond.2⟩
        · have := hacc tok' i' hs
          exact ⟨Or.inr hs, this⟩
      have hacc' : ∀ tok i, lmStep s acc p = some (tok, i) →
          tok ≠ [] ∧ isPrefOf tok s = true :=
        fun tok' i' hs => (hstep tok' i' hs).2
      obtain ⟨hmem, hrest⟩ := ih (lmStep s acc p) hacc' tok i h
      rcases hmem with hm | hm
      · exact ⟨Or.inl (List.mem_cons_of_mem _ hm), hrest⟩
      · rcases (hstep tok i hm).1 with he | he
        · exact ⟨Or.inl (by rw [he]; exact List.mem_cons_self _ _), hrest⟩
        · exact ⟨Or.inr he, hrest⟩

/-- Specification of `longestMatch`. -/
theorem longestMatch_spec (sp : List (List Nat × Nat)) (s : List Nat)
    (tok : List Nat) (i : Nat) (h : longestMatch sp s = some (tok, i)) :
    (tok, i) ∈ sp ∧ tok ≠ [] ∧ isPrefOf tok s = true := by
  have := lmFold_spec s sp none (by intro tok' i' h'; cases h') tok i h
  obtain ⟨hmem, hne, hpref⟩ := this
  rcases hmem with hm | hm
  · exact ⟨hm, hne, hpref⟩
  · cases hm

theorem joinSegs_consRaw (c : Nat) (segs : List Seg) :
    joinSegs (consRaw c segs) = c :: joinSegs segs := by
  cases segs with
  | nil => rfl
  | cons sg rest =>
      cases sg with
      | raw s => rfl
      | special tok i => rfl

/-- Partition: the scanned segments concatenate back to the input, for any
fuel. -/
theorem joinSegs_scanSpecialGo (sp : List (List Nat × Nat)) :
    ∀ fuel s, joinSegs (scanSpecialGo sp fuel s) = s := by
  intro fuel
  induction fuel with
  | zero =>
      intro s
      cases s <;> simp [scanSpecialGo, joinSegs]
  | succ f ih =>
      intro s
      cases s with
      | nil => simp [scanSpecialGo, joinSegs]
      | cons c rest =>
          rw [scanSpecialGo]
          cases hlm : longestMatch sp (c :: rest) with
          | none =>
              rw [joinSegs_consRaw, ih rest]
          | some p =>
              obtain ⟨tok, i⟩ := p
              obtain ⟨-, -, hpref⟩ := longestMatch_spec sp (c :: rest) tok i hlm
              rw [joinSegs, ih _]
              exact isPrefOf_drop tok (c :: rest) hpref

/-- Special segments in `consRaw`'s output were already present. -/
theorem special_mem_consRaw (c : Nat) (segs : List Seg) (tok : List Nat)
    (i : Nat) (h : Seg.special tok i ∈ consRaw c segs) :
    Seg.special tok i ∈ segs := by
  cases segs with
  | nil => simp [consRaw] at h
  | cons sg rest =>
      cases sg with
      | raw s =>
          simp only [consRaw] at h
          rcases List.mem_cons.1 h with h1 | h1
          · cases h1
          · exact List.mem_cons_of_mem _ h1
      | special tok' i' =>
          simp only [consRaw] at h
          rcases List.mem_cons.1 h with h1 | h1
          · cases h1
          · exact h1

/-- Every special segment the scanner emits is a registered token. -/
theorem special_mem_scanSpecialGo (sp : List (List Nat × Nat)) :
    ∀ fuel s tok i, Seg.special tok i ∈ scanSpecialGo sp fuel s →
      (tok, i) ∈ sp := by
  intro fuel
  induction fuel with
  | zero =>
      intro s tok i h
      cases s <;> simp [scanSpecialGo] at h
  | succ f ih =>
      intro s tok i h
      cases s with
      | nil => simp [scanSpecialGo] at h
      | cons c rest =>
          rw [scanSpecialGo] at h
          cases hlm : longestMatch sp (c :: rest) with
          | none =>
              rw [hlm] at h
              exact ih rest tok i (special_mem_consRaw c _ tok i h)
          | some p =>
              obtain ⟨tok', i'⟩ := p
              rw [hlm] at h
              simp only at h
              rcases List.mem_cons.1 h with h1 | h1
              · injection h1 with ha hb
                subst ha
                subst hb
                exact (longestMatch_spec sp (c :: rest) _ _ hlm).1
              · exact ih _ tok i h1

/-- Code points of a raw span occur in the joined segments. -/
theorem mem_joinSegs_of_raw (segs : List Seg) (s : List Nat)
    (h : Seg.raw s ∈ segs) : ∀ c ∈ s, c ∈ joinSegs segs := by
  induction segs with
  | nil => cases h
  | cons sg rest ih =>
      intro c hc
      rcases List.mem_cons.1 h with h1 | h1
      · subst h1
        rw [joinSegs]
        exact List.mem_append_left _ hc
      · cases sg with
        | raw s' =>
            rw [joinSegs]
            exact List.mem_append_right _ (ih h1 c hc)
        | special tok i =>
            rw [joinSegs]
            exact List.mem_append_right _ (ih h1 c hc)

/-! ## Decode-buffer lemmas -/

theorem decodeBuffer_append (t : Tokenizer) :
    ∀ (l₁ l₂ b₁ b₂ : List Nat), decodeBuffer t l₁ = some b₁ →
      decodeBuffer t l₂ = some b₂ →
      decodeBuffer t (l₁ ++ l₂) = some (b₁ ++ b₂) := by
  intro l₁
  induction l₁ with
  | nil =>
      intro l₂ b₁ b₂ h1 h2
      rw [decodeBuffer] at h1
      injection h1 with h1
      subst h1
      simpa using h2
  | cons i r ih =>
      intro l₂ b₁ b₂ h1 h2
      rw [decodeBuffer] at h1
      cases hib : idBytes t i with
      | none => rw [hib] at h1; cases h1
      | some bs =>
          rw [hib] at h1
          cases hdr : decodeBuffer t r with
          | none => rw [hdr] at h1; cases h1
          | some tl =>
              rw [hdr] at h1
              simp only at h1
              injection h1 with h1
              subst h1
              rw [List.cons_append, decodeBuffer, hib,
                ih l₂ tl b₂ hdr h2]
              simp [List.append_assoc]

/-- On id lists free of special ids, the decode buffer is the
vocabulary-level decode with the inverse permutation applied. -/
theorem decodeBuffer_eq_vdecode (t : Tokenizer) :
    ∀ ids, (∀ i ∈ ids, specialById t.specialTokens i = none) →
      decodeBuffer t ids =
        (vdecode t.vocab ids).map (fun bs => bs.map (invPermF t)) := by
  intro ids
  induction ids with
  | nil => intro _; rfl
  | cons i r ih =>
      intro h
      rw [decodeBuffer, vdecode, idBytes,
        h i (List.mem_cons_self _ _),
        ih (fun x hx => h x (List.mem_cons_of_mem _ hx))]
      cases hdl : dlookup t.vocab i with
      | none => rfl
      | some bs =>
          cases hvr : vdecode t.vocab r with
          | none => rfl
          | some tl => simp [List.map_append]

/-- Ids below every registered special id are not special. -/
theorem specialById_eq_none (sp : List (List Nat × Nat)) (L i : Nat)
    (h : ∀ p ∈ sp, L ≤ p.2) (hi : i < L) : specialById sp i = none := by
  have hfind : sp.find? (fun p => p.2 = i) = none := by
    rw [List.find?_eq_none]
    intro x hx
    have := h x hx
    simp only [decide_eq_true_eq]
    omega
  simp [specialById, hfind]

/-- With distinct special ids, reverse lookup recovers the literal. -/
theorem specialById_of_mem (sp : List (List Nat × Nat)) (tok : List Nat)
    (i : Nat) (hmem : (tok, i) ∈ sp) (hnd : (sp.map Prod.snd).Nodup) :
    specialById sp i = some tok := by
  induction sp with
  | nil => cases hmem
  | cons p rest ih =>
      rw [List.map_cons, List.nodup_cons] at hnd
      obtain ⟨hhead, hrest⟩ := hnd
      rcases List.mem_cons.1 hmem with h1 | h1
      · subst h1
        simp [specialById, List.find?_cons]
      · have hne : p.2 ≠ i := by
          intro he
          apply hhead
          rw [he]
          exact List.mem_map_of_mem Prod.snd h1
        have : specialById rest i = some tok := ih h1 hrest
        simp only [specialById, List.find?_cons] at this ⊢
        have hd : (decide (p.2 = i)) = false := by simpa using hne
        rw [hd]
        exact this

/-! ## Round-trip assembly -/

/-- Chunk-level round trip: encoding any below-256 byte list (through the
permutation) and decoding it back recovers the bytes. -/
theorem decodeBuffer_encodeChunk (t : Tokenizer)
    (hbase : ∀ b, b < 256 → dlookup t.vocab b = some [b])
    (hinv : ∀ r ∈ t.merges, ∃ v1 v2, dlookup t.vocab r.1.1 = some v1 ∧
      dlookup t.vocab r.1.2 = some v2 ∧ dlookup t.vocab r.2 = some (v1 ++ v2))
    (hL : ∀ r ∈ t.merges, r.2 < 256 + t.merges.length)
    (hspecHigh : ∀ p ∈ t.specialTokens, 256 + t.merges.length ≤ p.2)
    (hperm : ∀ b, b < 256 → permF t b < 256 ∧ invPermF t (permF t b) = b)
    (bytes : List Nat) (hbytes : ∀ b ∈ bytes, b < 256) :
    decodeBuffer t (encodeChunk t.merges (bytes.map (permF t))) =
      some bytes := by
  have hids0 : ∀ i ∈ bytes.map (permF t), i < 256 := by
    intro i hi
    obtain ⟨b, hb, rfl⟩ := List.mem_map.1 hi
    exact (hperm b (hbytes b hb)).1
  have hids0L : ∀ i ∈ bytes.map (permF t), i < 256 + t.merges.length :=
    fun i hi => Nat.lt_of_lt_of_le (hids0 i hi) (Nat.le_add_right _ _)
  have hout : ∀ j ∈ encodeChunk t.merges (bytes.map (permF t)),
      j < 256 + t.merges.length := by
    intro j hj
    exact encodeChunkGo_lt t.merges _ hL _ _ hids0L j hj
  have hnospec : ∀ j ∈ encodeChunk t.merges (bytes.map (permF t)),
      specialById t.specialTokens j = none := fun j hj =>
    specialById_eq_none _ _ _ hspecHigh (hout j hj)
  rw [decodeBuffer_eq_vdecode t _ hnospec, encodeChunk,
    vdecode_encodeChunkGo t.vocab t.merges hinv,
    vdecode_of_singletons t.vocab _ (fun i hi => hbase i (hids0 i hi))]
  simp only [Option.map_some']
  congr 1
  rw [List.map_map]
  have hcomp : ∀ b ∈ bytes, (invPermF t ∘ permF t) b = id b := by
    intro b hb
    exact (hperm b (hbytes b hb)).2
  rw [List.map_congr_left hcomp, List.map_id]

/-- Span-level round trip over the chunks of one non-special span. -/
theorem decodeBuffer_chunks (t : Tokenizer)
    (hbase : ∀ b, b < 256 → dlookup t.vocab b = some [b])
    (hinv : ∀ r ∈ t.merges, ∃ v1 v2, dlookup t.vocab r.1.1 = some v1 ∧
      dlookup t.vocab r.1.2 = some v2 ∧ dlookup t.vocab r.2 = some (v1 ++ v2))
    (hL : ∀ r ∈ t.merges, r.2 < 256 + t.merges.length)
    (hspecHigh : ∀ p ∈ t.specialTokens, 256 + t.merges.length ≤ p.2)
    (hperm : ∀ b, b < 256 → permF t b < 256 ∧ invPermF t (permF t b) = b) :
    ∀ chunks : List (List Nat), (∀ ch ∈ chunks, ∀ c ∈ ch, ValidScalar c) →
      decodeBuffer t (chunks.flatMap (fun chunk =>
        encodeChunk t.merges ((utf8EncodeList chunk).map (permF t)))) =
      some (utf8EncodeList chunks.flatten) := by
  intro chunks
  induction chunks with
  | nil => intro _; rfl
  | cons ch rest ih =>
      intro hv
      rw [List.flatMap_cons]
      have h1 := decodeBuffer_encodeChunk t hbase hinv hL hspecHigh hperm
        (utf8EncodeList ch)
        (utf8EncodeList_lt_256 ch (hv ch (List.mem_cons_self _ _)))
      have h2 := ih (fun c hc x hx => hv c (List.mem_cons_of_mem _ hc) x hx)
      rw [decodeBuffer_append t _ _ _ _ h1 h2, List.flatten_cons,
        utf8EncodeList_append]

/-- Segment-level round trip: the decode buffer of the encoded segments is
exactly the UTF-8 encoding of their concatenation. -/
theorem decodeBuffer_segs (t : Tokenizer)
    (compile : String → List Nat → List (List Nat))
    (hbase : ∀ b, b < 256 → dlookup t.vocab b = some [b])
    (hinv : ∀ r ∈ t.merges, ∃ v1 v2, dlookup t.vocab r.1.1 = some v1 ∧
      dlookup t.vocab r.1.2 = some v2 ∧ dlookup t.vocab r.2 = some (v1 ++ v2))
    (hL : ∀ r ∈ t.merges, r.2 < 256 + t.merges.length)
    (hspecHigh : ∀ p ∈ t.specialTokens, 256 + t.merges.length ≤ p.2)
    (hperm : ∀ b, b < 256 → permF t b < 256 ∧ invPermF t (permF t b) = b)
    (hnd : (t.specialTokens.map Prod.snd).Nodup)
    (hsegall : ∀ span, (chunksOfSpan compile t span).flatten = span) :
    ∀ segs : List Seg, (∀ c ∈ joinSegs segs, ValidScalar c) →
      (∀ tok i, Seg.special tok i ∈ segs → (tok, i) ∈ t.specialTokens) →
      decodeBuffer t (segs.flatMap (encodeSeg compile t)) =
        some (utf8EncodeList (joinSegs segs)) := by
  intro segs
  induction segs with
  | nil => intro _ _; rfl
  | cons sg rest ih =>
      intro hv hsp
      cases sg with
      | raw span =>
          rw [List.flatMap_cons]
          have hvspan : ∀ ch ∈ chunksOfSpan compile t span, ∀ c ∈ ch,
              ValidScalar c := by
            intro ch hch c hc
            apply hv
            have hcspan : c ∈ span := by
              rw [← hsegall span]
              exact List.mem_flatten.2 ⟨ch, hch, hc⟩
            rw [joinSegs]
            exact List.mem_append_left _ hcspan
          have h1 := decodeBuffer_chunks t hbase hinv hL hspecHigh hperm
            (chunksOfSpan compile t span) hvspan
          rw [hsegall span] at h1
          have h2 := ih
            (fun c hc => hv c (by rw [joinSegs]; exact List.mem_append_right _ hc))
            (fun tok i hm => hsp tok i (List.mem_cons_of_mem _ hm))
          rw [show encodeSeg compile t (Seg.raw span) =
            (chunksOfSpan compile t span).flatMap (fun chunk =>
              encodeChunk t.merges ((utf8EncodeList chunk).map (permF t)))
            from rfl]
          rw [decodeBuffer_append t _ _ _ _ h1 h2, joinSegs,
            utf8EncodeList_append]
      | special tok i =>
          have hmem := hsp tok i (List.mem_cons_self _ _)
          have h1 : decodeBuffer t [i] = some (utf8EncodeList tok) := by
            rw [decodeBuffer, idBytes, specialById_of_mem _ tok i hmem hnd]
            simp [decodeBuffer]
          have h2 := ih
            (fun c hc => hv c (by rw [joinSegs]; exact List.mem_append_right _ hc))
            (fun tok' i' hm => hsp tok' i' (List.mem_cons_of_mem _ hm))
          rw [List.flatMap_cons,
            show encodeSeg compile t (Seg.special tok i) = [i] from rfl,
            decodeBuffer_append t _ _ _ _ h1 h2, joinSegs,
            utf8EncodeList_append]

/-! ## Trainer determinism: the selection is invariant under any
reordering of the pooled pair statistics (the spec's total-order
tie-break), so chunk sharding order cannot change the learned table. -/

theorem lexMin_cases (p q : Nat × Nat) : lexMin p q = p ∨ lexMin p q = q := by
  unfold lexMin
  split_ifs <;> simp

/-- `lexMin` is the minimum in the lexicographic linear order on pairs. -/
theorem lexMin_toLex (p q : Nat × Nat) :
    toLex (lexMin p q) = min (toLex p) (toLex q) := by
  unfold lexMin
  rcases Nat.lt_trichotomy p.1 q.1 with h | h | h
  · rw [if_pos h]
    exact (min_eq_left ((Prod.Lex.le_iff p q).2 (Or.inl h))).symm
  · by_cases h2 : p.2 ≤ q.2
    · rw [if_neg (by omega), if_neg (by omega), if_pos h2]
      exact (min_eq_left ((Prod.Lex.le_iff p q).2 (Or.inr ⟨h, h2⟩))).symm
    · rw [if_neg (by omega), if_neg (by omega), if_neg h2]
      exact (min_eq_right
        ((Prod.Lex.le_iff q p).2 (Or.inr ⟨h.symm, by omega⟩))).symm
  · rw [if_neg (by omega), if_pos h]
    exact (min_eq_right ((Prod.Lex.le_iff q p).2 (Or.inl h))).symm

theorem lexMin_comm (p q : Nat × Nat) : lexMin p q = lexMin q p := by
  apply toLex.injective
  rw [lexMin_toLex, lexMin_toLex, min_comm]

theorem lexMin_assoc (p q r : Nat × Nat) :
    lexMin (lexMin p q) r = lexMin p (lexMin q r) := by
  apply toLex.injective
  rw [lexMin_toLex, lexMin_toLex, lexMin_toLex, lexMin_toLex, min_assoc]

theorem better_eq_left (cnt : Nat × Nat → Nat) (p q : Nat × Nat)
    (h : cnt q < cnt p) : better cnt p q = p := by
  unfold better
  rw [if_pos h]

theorem better_eq_right (cnt : Nat × Nat → Nat) (p q : Nat × Nat)
    (h : cnt p < cnt q) : better cnt p q = q := by
  unfold better
  rw [if_neg (by omega), if_pos h]

theorem better_eq_lexMin (cnt : Nat × Nat → Nat) (p q : Nat × Nat)
    (h : cnt p = cnt q) : better cnt p q = lexMin p q := by
  unfold better
  rw [if_neg (by omega), if_neg (by omega)]

theorem cnt_lexMin (cnt : Nat × Nat → Nat) (p q : Nat × Nat)
    (h : cnt p = cnt q) : cnt (lexMin p q) = cnt p := by
  rcases lexMin_cases p q with he | he <;> rw [he]
  exact h.symm

theorem better_comm (cnt : Nat × Nat → Nat) (p q : Nat × Nat) :
    better cnt p q = better cnt q p := by
  rcases Nat.lt_trichotomy (cnt p) (cnt q) with h | h | h
  · rw [better_eq_right cnt p q h, better_eq_left cnt q p h]
  · rw [better_eq_lexMin cnt p q h, better_eq_lexMin cnt q p h.symm,
      lexMin_comm]
  · rw [better_eq_left cnt p q h, better_eq_right cnt q p h]

theorem better_assoc (cnt : Nat × Nat → Nat) (p q r : Nat × Nat) :
    better cnt (better cnt p q) r = better cnt p (better cnt q r) := by
  rcases Nat.lt_trichotomy (cnt p) (cnt q) with h1 | h1 | h1
  · rw [better_eq_right cnt p q h1]
    rcases Nat.lt_trichotomy (cnt q) (cnt r) with h2 | h2 | h2
    · rw [better_eq_right cnt q r h2]
      rw [better_eq_right cnt p r (by omega)]
    · rw [better_eq_lexMin cnt q r h2]
      rw [better_eq_right cnt p (lexMin q r)
        (by rw [cnt_lexMin cnt q r h2]; omega)]
    · rw [better_eq_left cnt q r h2]
      rw [better_eq_right cnt p q h1]
  · rw [better_eq_lexMin cnt p q h1]
    rcases Nat.lt_trichotomy (cnt q) (cnt r) with h2 | h2 | h2
    · rw [better_eq_right cnt (lexMin p q) r
        (by rw [cnt_lexMin cnt p q h1]; omega)]
      rw [better_eq_right cnt q r h2, better_eq_right cnt p r (by omega)]
    · rw [better_eq_lexMin cnt (lexMin p q) r
        (by rw [cnt_lexMin cnt p q h1]; omega)]
      rw [better_eq_lexMin cnt q r h2]
      rw [better_eq_lexMin cnt p (lexMin q r)
        (by rw [cnt_lexMin cnt q r h2]; omega)]
      exact lexMin_assoc p q r
    · rw [better_eq_left cnt (lexMin p q) r
        (by rw [cnt_lexMin cnt p q h1]; omega)]
      rw [better_eq_left cnt q r h2, better_eq_lexMin cnt p q h1]
  · rw [better_eq_left cnt p q h1]
    rcases Nat.lt_trichotomy (cnt q) (cnt r) with h2 | h2 | h2
    · rw [better_eq_right cnt q r h2]
    · rw [better_eq_lexMin cnt q r h2]
      rw [better_eq_left cnt p r (by omega),
        better_eq_left cnt p (lexMin q r)
          (by rw [cnt_lexMin cnt q r h2]; omega)]
    · rw [better_eq_left cnt q r h2, better_eq_left cnt p q h1,
        better_eq_left cnt p r (by omega)]

theorem selStep_rightcomm (cnt : Nat × Nat → Nat)
    (acc : Option (Nat × Nat)) (a b : Nat × Nat) :
    selStep cnt (selStep cnt acc a) b = selStep cnt (selStep cnt acc b) a := by
  cases acc with
  | none => simp [selStep, better_comm cnt a b]
  | some q =>
      simp only [selStep]
      rw [better_assoc, better_assoc, better_comm cnt a b]

theorem foldl_selStep_perm (cnt : Nat × Nat → Nat) :
    ∀ (l₁ l₂ : List (Nat × Nat)), l₁.Perm l₂ →
      ∀ acc, l₁.foldl (selStep cnt) acc = l₂.foldl (selStep cnt) acc := by
  intro l₁ l₂ h
  induction h with
  | nil => intro acc; rfl
  | cons x h ih =>
      intro acc
      simp only [List.foldl_cons]
      exact ih _
  | swap x y l =>
      intro acc
      simp only [List.foldl_cons]
      rw [selStep_rightcomm]
  | trans h1 h2 ih1 ih2 =>
      intro acc
      rw [ih1, ih2]

theorem perm_flatten {α : Type} {l₁ l₂ : List (List α)} (h : l₁.Perm l₂) :
    l₁.flatten.Perm l₂.flatten := by
  induction h with
  | nil => exact List.Perm.refl _
  | cons x h ih => simpa using ih.append_left x
  | swap x y l =>
      simp only [List.flatten_cons]
      rw [← List.append_assoc, ← List.append_assoc]
      exact (List.perm_append_comm).append_right _
  | trans _ _ ih1 ih2 => exact ih1.trans ih2

theorem pairsOf_perm (c₁ c₂ : List (List Nat)) (h : c₁.Perm c₂) :
    (pairsOf c₁).Perm (pairsOf c₂) := by
  unfold pairsOf
  rw [List.flatMap_def, List.flatMap_def]
  exact perm_flatten (h.map adjPairs)

/-- Pooled pair counts are invariant under reordering. -/
theorem countPair_perm {l₁ l₂ : List (Nat × Nat)} (h : l₁.Perm l₂)
    (x : Nat × Nat) : countPair l₁ x = countPair l₂ x := by
  induction h with
  | nil => rfl
  | cons a h ih => rw [countPair, countPair, ih]
  | swap a b l =>
      rw [countPair, countPair, countPair, countPair]
      omega
  | trans _ _ ih1 ih2 => rw [ih1, ih2]

/-- The selected pair is invariant under reordering of the chunk list. -/
theorem selectBest_perm (c₁ c₂ : List (List Nat)) (h : c₁.Perm c₂) :
    selectBest c₁ = selectBest c₂ := by
  unfold selectBest
  have hp := pairsOf_perm c₁ c₂ h
  have hcnt : countPair (pairsOf c₁) = countPair (pairsOf c₂) :=
    funext fun x => countPair_perm hp x
  rw [hcnt]
  exact foldl_selStep_perm _ _ _ hp none

/-- The learned merge table is invariant under reordering of the chunks. -/
theorem trainLoop_perm :
    ∀ (n : Nat) (c₁ c₂ : List (List Nat)) (acc : List MergeRule),
      c₁.Perm c₂ → trainLoop n c₁ acc = trainLoop n c₂ acc := by
  intro n
  induction n with
  | zero => intro c₁ c₂ acc _; rfl
  | succ m ih =>
      intro c₁ c₂ acc h
      rw [trainLoop, trainLoop, selectBest_perm c₁ c₂ h]
      cases selectBest c₂ with
      | none => rfl
      | some p => exact ih _ _ _ (h.map (mergePair p (256 + acc.length)))

/-! ## Dict inversion (cli.py line 91) -/

theorem invertDict_go :
    ∀ (l acc : List (Nat × Nat)),
      (∀ p ∈ l, ∀ q ∈ acc, q.1 ≠ p.2) → ((l.map Prod.snd).Nodup) →
      l.foldl (fun a p => dinsert a p.2 p.1) acc =
        acc ++ l.map (fun p => (p.2, p.1)) := by
  intro l
  induction l with
  | nil => intro acc _ _; simp
  | cons p rest ih =>
      intro acc hfresh hnd
      rw [List.map_cons, List.nodup_cons] at hnd
      obtain ⟨hhead, hrest⟩ := hnd
      simp only [List.foldl_cons]
      rw [dinsert_of_fresh acc p.2 p.1
        (fun q hq => hfresh p (List.mem_cons_self _ _) q hq)]
      rw [ih (acc ++ [(p.2, p.1)]) ?_ hrest]
      · simp
      · intro p' hp' q hq
        rcases List.mem_append.1 hq with h1 | h1
        · exact hfresh p' (List.mem_cons_of_mem _ hp') q h1
        · simp only [List.mem_singleton] at h1
          subst h1
          intro he
          apply hhead
          have he' : p.2 = p'.2 := he
          rw [he']
          exact List.mem_map_of_mem Prod.snd hp'

/-- With distinct values, dict inversion is entrywise swapping. -/
theorem invertDict_eq_swap (l : List (Nat × Nat))
    (hnd : (l.map Prod.snd).Nodup) :
    invertDict l = l.map (fun p => (p.2, p.1)) := by
  unfold invertDict
  rw [invertDict_go l [] (by intro p _ q hq; cases hq) hnd]
  rfl

/-- Looking up `f b` in the swapped graph of `f` over `l` recovers `b`,
when `f` separates `b` from the rest of `l`. -/
theorem dlookup_swapped_graph (f : Nat → Nat) :
    ∀ (l : List Nat) (b : Nat), b ∈ l →
      (∀ x ∈ l, f x = f b → x = b) →
      dlookup (l.map (fun i => (f i, i))) (f b) = some b := by
  intro l
  induction l with
  | nil => intro b hb; cases hb
  | cons a rest ih =>
      intro b hb hsep
      rw [List.map_cons, dlookup_cons]
      by_cases he : f a = f b
      · have : a = b := hsep a (List.mem_cons_self _ _) he
        simp [he, this]
      · simp only [he, if_false]
        rcases List.mem_cons.1 hb with h1 | h1
        · exact absurd (congrArg f h1.symm) he
        · exact ih b h1 (fun x hx => hsep x (List.mem_cons_of_mem _ hx))

/-! ## Frame and behavior lemmas for the import steps -/

theorem loadSpecials_frame (c : Config) (t : Tokenizer) :
    (loadSpecials c t).typ = t.typ ∧
    (loadSpecials c t).merges = t.merges ∧
    (loadSpecials c t).vocab = t.vocab ∧
    (loadSpecials c t).pattern = t.pattern ∧
    (loadSpecials c t).byteShuffle = t.byteShuffle ∧
    (loadSpecials c t).inverseByteShuffle = t.inverseByteShuffle := by
  unfold loadSpecials
  rcases c.special_tokens with - | ⟨- | ⟨s, ss⟩⟩ <;>
    exact ⟨rfl, rfl, rfl, rfl, rfl, rfl⟩

theorem loadPattern_frame (c : Config) (t : Tokenizer) :
    (loadPattern c t).typ = t.typ ∧
    (loadPattern c t).merges = t.merges ∧
    (loadPattern c t).vocab = t.vocab ∧
    (loadPattern c t).specialTokens = t.specialTokens ∧
    (loadPattern c t).byteShuffle = t.byteShuffle ∧
    (loadPattern c t).inverseByteShuffle = t.inverseByteShuffle := by
  unfold loadPattern
  rcases c.pattern with - | p
  · exact ⟨rfl, rfl, rfl, rfl, rfl, rfl⟩
  · dsimp only
    split_ifs <;> exact ⟨rfl, rfl, rfl, rfl, rfl, rfl⟩

theorem loadShuffle_frame (c : Config) (t : Tokenizer) :
    (loadShuffle c t).typ = t.typ ∧
    (loadShuffle c t).merges = t.merges ∧
    (loadShuffle c t).vocab = t.vocab ∧
    (loadShuffle c t).specialTokens = t.specialTokens ∧
    (loadShuffle c t).pattern = t.pattern := by
  unfold loadShuffle
  split_ifs
  · rcases c.byte_shuffle with - | bs <;> exact ⟨rfl, rfl, rfl, rfl, rfl⟩
  · exact ⟨rfl, rfl, rfl, rfl, rfl⟩

theorem loadMerges_frame (c : Config) (t0 t1 : Tokenizer)
    (h : loadMerges c t0 = some t1) :
    t1.typ = t0.typ ∧ t1.specialTokens = t0.specialTokens ∧
    t1.pattern = t0.pattern ∧ t1.byteShuffle = t0.byteShuffle ∧
    t1.inverseByteShuffle = t0.inverseByteShuffle := by
  unfold loadMerges at h
  rcases hm : c.merges with - | ⟨- | ⟨m, ms⟩⟩ <;> rw [hm] at h
  · obtain rfl := Option.some.inj h
    exact ⟨rfl, rfl, rfl, rfl, rfl⟩
  · obtain rfl := Option.some.inj h
    exact ⟨rfl, rfl, rfl, rfl, rfl⟩
  · dsimp only at h
    cases hv : buildVocab (dictOfList (m :: ms)) with
    | none => rw [hv] at h; cases h
    | some v =>
        rw [hv] at h
        obtain rfl := Option.some.inj h
        exact ⟨rfl, rfl, rfl, rfl, rfl⟩

theorem loadMerges_empty (c : Config) (t0 : Tokenizer)
    (h : c.merges = none ∨ c.merges = some []) :
    loadMerges c t0 = some t0 := by
  unfold loadMerges
  rcases h with h | h <;> rw [h]

theorem loadMerges_set (c : Config) (t0 : Tokenizer) (m : MergeRule)
    (ms : List MergeRule) (v : List (Nat × List Nat))
    (hm : c.merges = some (m :: ms))
    (hv : buildVocab (dictOfList (m :: ms)) = some v) :
    loadMerges c t0 =
      some { t0 with merges := dictOfList (m :: ms), vocab := v } := by
  unfold loadMerges
  rw [hm]
  dsimp only
  rw [hv]

theorem loadSpecials_empty (c : Config) (t : Tokenizer)
    (h : c.special_tokens = none ∨ c.special_tokens = some []) :
    loadSpecials c t = t := by
  unfold loadSpecials
  rcases h with h | h <;> rw [h]

theorem loadSpecials_set (c : Config) (t : Tokenizer) (s : List Nat × Nat)
    (ss : List (List Nat × Nat)) (h : c.special_tokens = some (s :: ss)) :
    loadSpecials c t = { t with specialTokens := s :: ss } := by
  unfold loadSpecials
  rw [h]

theorem loadPattern_empty (c : Config) (t : Tokenizer)
    (h : c.pattern = none ∨ c.pattern = some "") :
    loadPattern c t = t := by
  unfold loadPattern
  rcases h with h | h <;> rw [h]
  simp

theorem loadPattern_set (c : Config) (t : Tokenizer) (p : String)
    (h : c.pattern = some p) (hp : p ≠ "") :
    loadPattern c t = { t with pattern := p } := by
  unfold loadPattern
  rw [h]
  dsimp only
  rw [if_pos hp]

theorem loadShuffle_not_gpt4 (c : Config) (t : Tokenizer)
    (h : c.typ ≠ TokType.gpt4) : loadShuffle c t = t := by
  unfold loadShuffle
  rw [if_neg h]

theorem loadShuffle_set (c : Config) (t : Tokenizer)
    (bs : List (Nat × Nat)) (h : c.typ = TokType.gpt4)
    (hb : c.byte_shuffle = some bs) :
    loadShuffle c t = { t with byteShuffle := some bs,
                               inverseByteShuffle := some (invertDict bs) } := by
  unfold loadShuffle
  rw [if_pos h, hb]

theorem loadShuffle_absent (c : Config) (t : Tokenizer)
    (hb : c.byte_shuffle = none) : loadShuffle c t = t := by
  unfold loadShuffle
  split_ifs
  · rw [hb]
  · rfl

/-! ## Claims -/

/-- C1: For every string `t` that is well-formed UTF-8 (here: a sequence of
Unicode scalar values) and for any tokenizer state `S` — well-formed merge
table, vocabulary rebuilt by replay, a byte permutation whose stored
inverse really inverts it, special-token ids allocated above the merge id
range and distinct, and a segmenter that partitions its input — decoding
the result of encoding `t` under `S` yields `t` exactly:
`decode(encode(t, S), S) = t`. -/
theorem c1_decode_encode_roundtrip
    (compile : String → List Nat → List (List Nat)) (t : Tokenizer)
    (text : List Nat)
    (hWF : WFMerges t.merges)
    (hvocab : buildVocab t.merges = some t.vocab)
    (hperm : ∀ b, b < 256 → permF t b < 256 ∧ invPermF t (permF t b) = b)
    (hspecHigh : ∀ p ∈ t.specialTokens, 256 + t.merges.length ≤ p.2)
    (hnd : (t.specialTokens.map Prod.snd).Nodup)
    (hseg : ∀ s, (compile t.pattern s).flatten = s)
    (htext : ∀ c ∈ text, ValidScalar c) :
    decodeText t (encodeText compile t text) = some text := by
  obtain ⟨v, hv, hbase, hkeys, hinv⟩ := buildVocab_wf t.merges hWF
  have hveq : v = t.vocab := by
    rw [hvocab] at hv
    exact (Option.some.inj hv).symm
  rw [hveq] at hbase hinv
  have hL : ∀ r ∈ t.merges, r.2 < 256 + t.merges.length := by
    intro r hr
    obtain ⟨⟨k, hk⟩, hg⟩ := List.mem_iff_get.1 hr
    have := (hWF k hk).1
    rw [hg] at this
    omega
  have hflat : ∀ span, (chunksOfSpan compile t span).flatten = span := by
    intro span
    unfold chunksOfSpan
    split_ifs
    · simp
    · exact hseg span
  have hjoin : joinSegs (scanSpecial t.specialTokens text) = text :=
    joinSegs_scanSpecialGo t.specialTokens text.length text
  have hvseg : ∀ c ∈ joinSegs (scanSpecial t.specialTokens text),
      ValidScalar c := fun c hc => htext c (by rwa [hjoin] at hc)
  have hsp : ∀ tok i, Seg.special tok i ∈ scanSpecial t.specialTokens text →
      (tok, i) ∈ t.specialTokens :=
    fun tok i h =>
      special_mem_scanSpecialGo t.specialTokens text.length text tok i h
  have hmain := decodeBuffer_segs t compile hbase hinv hL hspecHigh hperm hnd
    hflat (scanSpecial t.specialTokens text) hvseg hsp
  rw [decodeText, encodeText, hmain, hjoin, Option.map_some',
    utf8Decode_encodeList text htext]

/-- A small concrete tokenizer state: one learned merge `(104,105) → 256`
and one registered special token. -/
def c1Tok : Tokenizer :=
  { typ := TokType.basic, merges := [((104, 105), 256)],
    specialTokens := [([60, 69, 62], 300)], pattern := "",
    vocab := (buildVocab [((104, 105), 256)]).getD [],
    byteShuffle := none, inverseByteShuffle := none }

set_option maxRecDepth 20000 in
theorem c1_decode_encode_roundtrip_witness :
    decodeText c1Tok (encodeText (fun _ s => [s]) c1Tok [104, 105, 60, 69, 62]) =
      some [104, 105, 60, 69, 62] :=
  c1_decode_encode_roundtrip (fun _ s => [s]) c1Tok [104, 105, 60, 69, 62]
    (by decide)
    (by rfl)
    (by decide)
    (by decide)
    (by decide)
    (by intro s; simp)
    (by decide)

/-- C5: For every token-id sequence containing an id outside
`[0, currentMaxId]` (all vocabulary keys and special-token ids are at most
`m`, and the sequence contains some `i > m`), the decode operation fails
hard (`none`, the MalformedInput failure); it never silently drops the id
or emits garbage bytes. -/
theorem c5_decode_invalid_id_fails (t : Tokenizer) (ids : List Nat)
    (m i : Nat)
    (hvoc : ∀ p ∈ t.vocab, p.1 ≤ m)
    (hsp : ∀ p ∈ t.specialTokens, p.2 ≤ m)
    (hi : m < i) (hmem : i ∈ ids) :
    decodeText t ids = none := by
  have hspecial : specialById t.specialTokens i = none := by
    have hfind : t.specialTokens.find? (fun p => p.2 = i) = none := by
      rw [List.find?_eq_none]
      intro x hx
      have := hsp x hx
      simp only [decide_eq_true_eq]
      omega
    simp [specialById, hfind]
  have hvocabNone : dlookup t.vocab i = none :=
    dlookup_eq_none_of_not_mem _ _ (fun p hp => by have := hvoc p hp; omega)
  have hid : idBytes t i = none := by
    rw [idBytes, hspecial, hvocabNone]
    rfl
  have hbuf : decodeBuffer t ids = none := by
    clear hi
    induction ids with
    | nil => cases hmem
    | cons j rest ih =>
        rw [decodeBuffer]
        rcases List.mem_cons.1 hmem with h1 | h1
        · subst h1
          rw [hid]
        · rw [ih h1]
          cases idBytes t j <;> rfl
  rw [decodeText, hbuf]
  rfl

set_option maxRecDepth 20000 in
theorem c5_decode_invalid_id_fails_witness :
    decodeText (create_tokenizer TokType.basic) [256] = none :=
  c5_decode_invalid_id_fails (create_tokenizer TokType.basic) [256] 255 256
    (by decide)
    (by decide)
    (by decide)
    (by decide)

/-- C7: Training is a deterministic function of its inputs, and the
learned MergeTable is identical regardless of the order in which the
pooled chunks are processed (the model of execution parallelism): any two
shardings that are permutations of the canonical chunk list produce the
same MergeTable, and hence the same trained tokenizer and exported
configuration. -/
theorem c7_training_deterministic
    (compile : String → List Nat → List (List Nat)) (t : Tokenizer)
    (text : List Nat) (v : Nat) (chunks1 chunks2 : List (List Nat))
    (h1 : chunks1.Perm (trainChunksOf compile t text))
    (h2 : chunks2.Perm (trainChunksOf compile t text)) :
    trainLoop (v - 256) chunks1 [] = trainLoop (v - 256) chunks2 [] ∧
    trainTokenizer compile t text v = trainTokenizer compile t text v :=
  ⟨trainLoop_perm (v - 256) chunks1 chunks2 [] (h1.trans h2.symm), rfl⟩

theorem c7_training_deterministic_witness :
    trainLoop (259 - 256) [[104], [105, 104]] [] =
      trainLoop (259 - 256) [[105, 104], [104]] [] ∧
    trainTokenizer (fun _ _ => [[104], [105, 104]])
        (create_tokenizer TokType.regex) [104] 259 =
      trainTokenizer (fun _ _ => [[104], [105, 104]])
        (create_tokenizer TokType.regex) [104] 259 :=
  c7_training_deterministic (fun _ _ => [[104], [105, 104]])
    (create_tokenizer TokType.regex) [104] 259
    [[104], [105, 104]] [[105, 104], [104]]
    (by decide)
    (by decide)

/-- C2 counterexample: a train request against the pretrained (gpt4)
variant completes with status `"success"` (and not `"error"`), even with a
vocabulary size below the base alphabet — the handler skips training
instead of failing. -/
theorem c2_gpt4_train_succeeds_counterexample :
    (handle_train_command (fun _ s => [s]) TokType.gpt4 100
      (Except.ok [97]) (Except.ok ())).status = "success" ∧
    (handle_train_command (fun _ s => [s]) TokType.gpt4 100
      (Except.ok [97]) (Except.ok ())).status ≠ "error" := by
  constructor
  · rfl
  · have hs : (handle_train_command (fun _ s => [s]) TokType.gpt4 100
      (Except.ok [97]) (Except.ok ())).status = "success" := rfl
    rw [hs]
    decide

/-- C2 amended: a train request against the pretrained (gpt4) variant is
not rejected; the handler skips training entirely, keeps the pretrained
tokenizer unchanged, and returns a success result — regardless of the
supplied text and vocabulary size. -/
theorem c2_gpt4_train_skips_training
    (compile : String → List Nat → List (List Nat)) (text : List Nat)
    (v : Nat) :
    trainStep compile TokType.gpt4 text v =
      Except.ok (create_tokenizer TokType.gpt4) ∧
    (handle_train_command compile TokType.gpt4 v (Except.ok text)
      (Except.ok ())).status = "success" :=
  ⟨rfl, rfl⟩

/-- A config whose merge table has a non-contiguous result id (300 with no
ids 256-299). -/
def c3BadConfig : Config :=
  { typ := TokType.basic, vocab_size := none,
    merges := some [((97, 98), 300)],
    special_tokens := none, pattern := none, metadata := false,
    byte_shuffle := none }

set_option maxRecDepth 40000 in
/-- C3 counterexample: configurations whose merge tables have a
non-contiguous result id (300) or a duplicated result id (256 twice) are
both imported successfully — a tokenizer is constructed, no InvalidState
rejection happens. -/
theorem c3_no_validation_counterexample :
    (load_tokenizer_from_config c3BadConfig).isSome = true ∧
    (load_tokenizer_from_config
      { c3BadConfig with
        merges := some [((97, 98), 256), ((99, 100), 256)] }).isSome =
      true := by
  constructor
  · rfl
  · rfl

/-- Dict insertion never removes a present key. -/
theorem dlookup_dinsert_isSome (l : List (κ × α)) (k' : κ) (v : α) (k : κ)
    (h : (dlookup l k).isSome) : (dlookup (dinsert l k' v) k).isSome := by
  unfold dinsert
  split_ifs with hany
  · rw [dlookup_isSome_iff] at h ⊢
    obtain ⟨x, hx⟩ := h
    by_cases he : k = k'
    · subst he
      exact ⟨v, List.mem_map.2 ⟨(k, x), hx, by simp⟩⟩
    · exact ⟨x, List.mem_map.2 ⟨(k, x), hx, by simp [he]⟩⟩
  · obtain ⟨x, hx⟩ := Option.isSome_iff_exists.1 h
    rw [dlookup_append_of_some l _ k x hx]
    rfl

/-- Every entry of a dict built from a pair list is one of its pairs. -/
theorem mem_dinsert (l : List (κ × α)) (k : κ) (v : α) (q : κ × α)
    (h : q ∈ dinsert l k v) : q ∈ l ∨ q = (k, v) := by
  unfold dinsert at h
  split_ifs at h with hany
  · obtain ⟨p, hp, he⟩ := List.mem_map.1 h
    split_ifs at he
    · exact Or.inr he.symm
    · exact Or.inl (he ▸ hp)
  · rcases List.mem_append.1 h with h1 | h1
    · exact Or.inl h1
    · simp only [List.mem_singleton] at h1
      exact Or.inr h1

theorem foldl_dinsert_pred (P : κ × α → Prop) :
    ∀ (m acc : List (κ × α)), (∀ q ∈ acc, P q) → (∀ p ∈ m, P p) →
      ∀ q ∈ m.foldl (fun a p => dinsert a p.1 p.2) acc, P q := by
  intro m
  induction m with
  | nil => intro acc hacc _ q hq; exact hacc q hq
  | cons p rest ih =>
      intro acc hacc hm q hq
      simp only [List.foldl_cons] at hq
      refine ih (dinsert acc p.1 p.2) ?_
        (fun x hx => hm x (List.mem_cons_of_mem _ hx)) q hq
      intro x hx
      rcases mem_dinsert acc p.1 p.2 x hx with h1 | h1
      · exact hacc x h1
      · rw [h1]
        have := hm p (List.mem_cons_self _ _)
        simpa using this

theorem mem_dictOfList (l : List (κ × α)) (q : κ × α)
    (h : q ∈ dictOfList l) : q ∈ l :=
  foldl_dinsert_pred (fun x => x ∈ l) l [] (fun _ hx => by cases hx)
    (fun p hp => hp) q h

/-- Replay cannot fail when every parent id is a base byte. -/
theorem buildVocab_isSome_of_low_parents (ms : List MergeRule)
    (hpar : ∀ r ∈ ms, r.1.1 < 256 ∧ r.1.2 < 256) :
    (buildVocab ms).isSome = true := by
  have hgo : ∀ (rem : List MergeRule) (acc : List (Nat × List Nat)),
      (∀ r ∈ rem, r.1.1 < 256 ∧ r.1.2 < 256) →
      (∀ k, k < 256 → (dlookup acc k).isSome) →
      (rem.foldlM buildStep acc).isSome = true := by
    intro rem
    induction rem with
    | nil => intro acc _ _; rfl
    | cons r rest ih =>
        intro acc hr htot
        obtain ⟨h1, h2⟩ := hr r (List.mem_cons_self _ _)
        obtain ⟨v1, hv1⟩ := Option.isSome_iff_exists.1 (htot r.1.1 h1)
        obtain ⟨v2, hv2⟩ := Option.isSome_iff_exists.1 (htot r.1.2 h2)
        rw [List.foldlM_cons,
          show buildStep acc r = some (dinsert acc r.2 (v1 ++ v2)) by
            rw [buildStep, hv1, hv2]]
        exact ih (dinsert acc r.2 (v1 ++ v2))
          (fun x hx => hr x (List.mem_cons_of_mem _ hx))
          (fun k hk => dlookup_dinsert_isSome acc r.2 (v1 ++ v2) k
            (htot k hk))
  refine hgo ms baseVocab hpar ?_
  intro k hk
  rw [dlookup_baseVocab k hk]
  rfl

/-- C3 amended: import performs no structural validation of the merge
table's result ids.  Any configuration whose merge rules' parents are base
bytes — non-contiguous or duplicated result ids included — is imported
successfully into a tokenizer; the only failure mode of import is a parent
id missing during vocabulary replay (an exception, not an InvalidState
rejection). -/
theorem c3_amended_no_structural_validation (c : Config)
    (ms : List MergeRule) (hm : c.merges = some ms)
    (hpar : ∀ r ∈ ms, r.1.1 < 256 ∧ r.1.2 < 256) :
    (load_tokenizer_from_config c).isSome = true := by
  unfold load_tokenizer_from_config
  cases ms with
  | nil =>
      rw [show loadMerges c (create_tokenizer c.typ) =
        some (create_tokenizer c.typ) from
        loadMerges_empty c _ (Or.inr hm)]
      rfl
  | cons m mrest =>
      have hpar' : ∀ r ∈ dictOfList (m :: mrest), r.1.1 < 256 ∧ r.1.2 < 256 :=
        fun r hr => hpar r (mem_dictOfList _ r hr)
      obtain ⟨v, hv⟩ := Option.isSome_iff_exists.1
        (buildVocab_isSome_of_low_parents _ hpar')
      rw [loadMerges_set c _ m mrest v hm hv]
      rfl

theorem c3_amended_no_structural_validation_witness :
    (load_tokenizer_from_config c3BadConfig).isSome = true :=
  c3_amended_no_structural_validation c3BadConfig [((97, 98), 300)] rfl
    (by decide)

/-- C6: For every imported configuration carrying a `byte_shuffle`
permutation, import recomputes the inverse permutation from the stored
forward table (the config carries no inverse field to read), and when the
stored table is a bijection on `[0,255]` — the graph of an injective
self-map `f` of the byte range — the recomputed `inverse_byte_shuffle` is
its exact mathematical inverse. -/
theorem c6_inverse_recomputed (c : Config) (bs : List (Nat × Nat))
    (f : Nat → Nat)
    (htyp : c.typ = TokType.gpt4)
    (hshuf : c.byte_shuffle = some bs)
    (hnomerge : c.merges = none)
    (hbs : bs = (List.range 256).map (fun i => (i, f i)))
    (hrange : ∀ b, b < 256 → f b < 256)
    (hinj : ∀ a, a < 256 → ∀ b, b < 256 → f a = f b → a = b) :
    ∃ t, load_tokenizer_from_config c = some t ∧
      t.inverseByteShuffle = some (invertDict bs) ∧
      ∀ b, b < 256 → dlookup (invertDict bs) (f b) = some b := by
  have hnd : (bs.map Prod.snd).Nodup := by
    rw [hbs, List.map_map]
    rw [show (Prod.snd ∘ fun i => (i, f i)) = f from rfl]
    refine List.Nodup.map_on ?_ (List.nodup_range 256)
    intro x hx y hy he
    exact hinj x (List.mem_range.1 hx) y (List.mem_range.1 hy) he
  have hkey : ∀ b, b < 256 → dlookup (invertDict bs) (f b) = some b := by
    rw [invertDict_eq_swap bs hnd, hbs, List.map_map,
      show ((fun p : Nat × Nat => (p.2, p.1)) ∘ fun i => (i, f i)) =
        fun i => (f i, i) from rfl]
    intro b hb
    exact dlookup_swapped_graph f (List.range 256) b (List.mem_range.2 hb)
      (fun x hx he => hinj x (List.mem_range.1 hx) b hb he)
  refine ⟨loadShuffle c (loadPattern c (loadSpecials c
    (create_tokenizer c.typ))), ?_, ?_, hkey⟩
  · unfold load_tokenizer_from_config
    rw [loadMerges_empty c _ (Or.inl hnomerge)]
  · rw [loadShuffle_set c _ bs htyp hshuf]

set_option maxRecDepth 100000 in
set_option maxHeartbeats 4000000 in
theorem c6_inverse_recomputed_witness :
    ∃ t, load_tokenizer_from_config
        { typ := TokType.gpt4, vocab_size := none, merges := none,
          special_tokens := none, pattern := none, metadata := false,
          byte_shuffle := some ((List.range 256).map (fun i => (i, i))) } =
        some t ∧
      t.inverseByteShuffle =
        some (invertDict ((List.range 256).map (fun i => (i, i)))) ∧
      ∀ b, b < 256 →
        dlookup (invertDict ((List.range 256).map (fun i => (i, i)))) b =
          some b :=
  c6_inverse_recomputed
    { typ := TokType.gpt4, vocab_size := none, merges := none,
      special_tokens := none, pattern := none, metadata := false,
      byte_shuffle := some ((List.range 256).map (fun i => (i, i))) }
    ((List.range 256).map (fun i => (i, i))) (fun x => x)
    rfl rfl rfl rfl
    (by decide)
    (by decide)

/-- C8 counterexample: the record exported for a fresh basic tokenizer does
not consist of exactly the fields type, vocab_size, merges,
special_tokens, pattern — it additionally contains a `metadata` field. -/
theorem c8_export_fields_counterexample :
    configKeys (export_tokenizer_config (create_tokenizer TokType.basic)
      TokType.basic) ≠
      ["type", "vocab_size", "merges", "special_tokens", "pattern"] ∧
    "metadata" ∈ configKeys (export_tokenizer_config
      (create_tokenizer TokType.basic) TokType.basic) := by
  constructor
  · intro h
    have hk : configKeys (export_tokenizer_config
        (create_tokenizer TokType.basic) TokType.basic) =
        ["type", "vocab_size", "merges", "special_tokens", "pattern",
         "metadata"] := rfl
    rw [hk] at h
    cases h
  · have hk : configKeys (export_tokenizer_config
        (create_tokenizer TokType.basic) TokType.basic) =
        ["type", "vocab_size", "merges", "special_tokens", "pattern",
         "metadata"] := rfl
    rw [hk]
    decide

/-- C8 amended: for every tokenizer, the exported configuration record
contains exactly the fields type, vocab_size, merges, special_tokens,
pattern and metadata (merges / special_tokens carrying the tokenizer's
values, which every variant possesses), and contains a byte_shuffle entry
if and only if the tokenizer is exported as the pretrained (gpt4) variant
and carries a byte permutation. -/
theorem c8_amended_export_fields (t : Tokenizer) (typ : TokType) :
    configKeys (export_tokenizer_config t typ) =
      ["type", "vocab_size", "merges", "special_tokens", "pattern",
       "metadata"] ++
      (if typ = TokType.gpt4 ∧ t.byteShuffle.isSome then ["byte_shuffle"]
       else []) ∧
    (export_tokenizer_config t typ).merges = some t.merges ∧
    (export_tokenizer_config t typ).special_tokens =
      some t.specialTokens ∧
    (export_tokenizer_config t typ).pattern = some t.pattern := by
  refine ⟨?_, rfl, rfl, rfl⟩
  unfold configKeys export_tokenizer_config
  by_cases h : typ = TokType.gpt4
  · cases hb : t.byteShuffle <;> simp [h, hb]
  · simp [h]

/-- C9: For every imported configuration in which merges is absent or the
empty list, special_tokens is absent or empty, or pattern is absent or the
empty string, import leaves the corresponding field of the freshly
constructed tokenizer at its constructor default (so a gpt4 config with
empty merges keeps the pretrained merge table and vocabulary, and a regex
config with empty pattern keeps the default split pattern): import can
never set an empty merge table or clear the pattern. -/
theorem c9_import_keeps_defaults (c : Config) (t : Tokenizer)
    (hload : load_tokenizer_from_config c = some t) :
    ((c.merges = none ∨ c.merges = some []) →
      t.merges = (create_tokenizer c.typ).merges ∧
      t.vocab = (create_tokenizer c.typ).vocab) ∧
    ((c.special_tokens = none ∨ c.special_tokens = some []) →
      t.specialTokens = (create_tokenizer c.typ).specialTokens) ∧
    ((c.pattern = none ∨ c.pattern = some "") →
      t.pattern = (create_tokenizer c.typ).pattern) := by
  unfold load_tokenizer_from_config at hload
  cases hm : loadMerges c (create_tokenizer c.typ) with
  | none => rw [hm] at hload; cases hload
  | some t1 =>
      rw [hm] at hload
      obtain rfl := Option.some.inj hload
      refine ⟨?_, ?_, ?_⟩
      · intro hme
        rw [loadMerges_empty c _ hme] at hm
        obtain rfl := Option.some.inj hm
        constructor
        · rw [(loadShuffle_frame c _).2.1, (loadPattern_frame c _).2.1,
            (loadSpecials_frame c _).2.1]
        · rw [(loadShuffle_frame c _).2.2.1, (loadPattern_frame c _).2.2.1,
            (loadSpecials_frame c _).2.2.1]
      · intro hse
        rw [(loadShuffle_frame c _).2.2.2.1, (loadPattern_frame c _).2.2.2.1,
          loadSpecials_empty c _ hse]
        exact (loadMerges_frame c _ t1 hm).2.1
      · intro hpe
        rw [(loadShuffle_frame c _).2.2.2.2, loadPattern_empty c _ hpe,
          (loadSpecials_frame c _).2.2.2.1]
        exact (loadMerges_frame c _ t1 hm).2.2.1

theorem c9_import_keeps_defaults_witness :
    ((some ([] : List MergeRule) = none ∨
        some ([] : List MergeRule) = some []) →
      (create_tokenizer TokType.regex).merges =
        (create_tokenizer TokType.regex).merges ∧
      (create_tokenizer TokType.regex).vocab =
        (create_tokenizer TokType.regex).vocab) ∧
    ((some ([] : List (List Nat × Nat)) = none ∨
        some ([] : List (List Nat × Nat)) = some []) →
      (create_tokenizer TokType.regex).specialTokens =
        (create_tokenizer TokType.regex).specialTokens) ∧
    ((some "" = none ∨ some "" = some "") →
      (create_tokenizer TokType.regex).pattern =
        (create_tokenizer TokType.regex).pattern) :=
  c9_import_keeps_defaults
    { typ := TokType.regex, vocab_size := none, merges := some [],
      special_tokens := some [], pattern := some "", metadata := false,
      byte_shuffle := none }
    (create_tokenizer TokType.regex)
    rfl

/-- A well-tagged handler result: implementation `"python"`, a status that
is either `"success"` or `"error"`, a process exit code that is nonzero
exactly when the status is `"error"`, and an error message whenever the
status is `"error"`. -/
def ResultOk (r : CmdResult) : Prop :=
  r.implementation = "python" ∧
  (r.status = "success" ∨ r.status = "error") ∧
  (exitCodeOf r ≠ 0 ↔ r.status = "error") ∧
  (r.status = "error" → r.error.isSome)

/-- C10: Every command handler (train, encode, decode, export, load), on
every input, returns a tagged result with implementation `"python"` and a
status of `"success"` or `"error"`; the exit code is nonzero exactly when
the status is `"error"`; and an exception in a handler's first fallible
step is caught and converted into an error result carrying the message —
the handlers are total, no exception escapes. -/
theorem c10_handlers_tagged_results :
    (∀ compile typ v readText writeOut,
      ResultOk (handle_train_command compile typ v readText writeOut)) ∧
    (∀ compile readConfig readText writeOut,
      ResultOk (handle_encode_command compile readConfig readText writeOut)) ∧
    (∀ readConfig readTokens writeOut,
      ResultOk (handle_decode_command readConfig readTokens writeOut)) ∧
    (∀ readConfig vocabFlag writeVocab writeOut,
      ResultOk (handle_export_command readConfig vocabFlag writeVocab
        writeOut)) ∧
    (∀ compile readConfig,
      ResultOk (handle_load_command compile readConfig)) ∧
    (∀ compile typ v e writeOut,
      handle_train_command compile typ v (Except.error e) writeOut =
        mkError "train" e) ∧
    (∀ compile e readText writeOut,
      handle_encode_command compile (Except.error e) readText writeOut =
        mkError "encode" e) ∧
    (∀ e readTokens writeOut,
      handle_decode_command (Except.error e) readTokens writeOut =
        mkError "decode" e) ∧
    (∀ e vocabFlag writeVocab writeOut,
      handle_export_command (Except.error e) vocabFlag writeVocab writeOut =
        mkError "export" e) ∧
    (∀ compile e,
      handle_load_command compile (Except.error e) = mkError "load" e) := by
  have hok : ∀ cmd msg, ResultOk (mkError cmd msg) := by
    intro cmd msg
    refine ⟨rfl, Or.inr rfl, ?_, fun _ => rfl⟩
    simp [exitCodeOf, mkError]
  refine ⟨?_, ?_, ?_, ?_, ?_, fun _ _ _ _ _ => rfl, fun _ _ _ _ => rfl,
    fun _ _ _ => rfl, fun _ _ _ _ => rfl, fun _ _ => rfl⟩
  · intro compile typ v readText writeOut
    cases readText with
    | error e => exact hok "train" e
    | ok text =>
        rw [handle_train_command]
        cases htr : trainStep compile typ text v with
        | error e => exact hok "train" e
        | ok tok =>
            cases writeOut with
            | error e => exact hok "train" e
            | ok u =>
                exact ⟨rfl, Or.inl rfl, by simp [exitCodeOf], by simp⟩
  · intro compile readConfig readText writeOut
    cases readConfig with
    | error e => exact hok "encode" e
    | ok cfg =>
        rw [handle_encode_command]
        cases hld : load_tokenizer_from_config cfg with
        | none => exact hok "encode" _
        | some tok =>
            cases readText with
            | error e => exact hok "encode" e
            | ok text =>
                cases writeOut with
                | error e => exact hok "encode" e
                | ok u =>
                    exact ⟨rfl, Or.inl rfl, by simp [exitCodeOf], by simp⟩
  · intro readConfig readTokens writeOut
    cases readConfig with
    | error e => exact hok "decode" e
    | ok cfg =>
        rw [handle_decode_command]
        cases hld : load_tokenizer_from_config cfg with
        | none => exact hok "decode" _
        | some tok =>
            dsimp only
            cases readTokens with
            | error e => exact hok "decode" e
            | ok ids =>
                dsimp only
                cases hdec : decodeText tok ids with
                | none => exact hok "decode" _
                | some cps =>
                    cases writeOut with
                    | error e => exact hok "decode" e
                    | ok u =>
                        exact ⟨rfl, Or.inl rfl, by simp [exitCodeOf], by simp⟩
  · intro readConfig vocabFlag writeVocab writeOut
    cases readConfig with
    | error e => exact hok "export" e
    | ok cfg =>
        rw [handle_export_command]
        cases hld : load_tokenizer_from_config cfg with
        | none => exact hok "export" _
        | some tok =>
            cases hvw : (if vocabFlag then writeVocab else Except.ok ()) with
            | error e => exact hok "export" e
            | ok u =>
                cases writeOut with
                | error e => exact hok "export" e
                | ok u2 =>
                    exact ⟨rfl, Or.inl rfl, by simp [exitCodeOf], by simp⟩
  · intro compile readConfig
    cases readConfig with
    | error e => exact hok "load" e
    | ok cfg =>
        rw [handle_load_command]
        cases hld : load_tokenizer_from_config cfg with
        | none => exact hok "load" _
        | some tok =>
            dsimp only
            cases hdec : decodeText tok
              (encodeText compile tok loadProbeText) with
            | none => exact hok "load" _
            | some decoded =>
                exact ⟨rfl, Or.inl rfl, by simp [exitCodeOf], by simp⟩

/-- C4: For every tokenizer state `S` of the shape the wrapper can
construct — vocabulary derived by replay, merges a dict (no duplicate
pairs), non-basic variants carrying a non-empty pattern, the gpt4 variant
carrying its non-empty pretrained table, special tokens and byte shuffle
with its recomputed inverse, other variants carrying no shuffle —
importing the exported configuration of `S` yields a state whose encode
and decode behavior is identical to that of `S` on every input (indeed the
state itself is reconstructed exactly). -/
theorem c4_import_export_roundtrip (S : Tokenizer)
    (hvocab : buildVocab S.merges = some S.vocab)
    (hdict : dictOfList S.merges = S.merges)
    (hpat : S.typ ≠ TokType.basic → S.pattern ≠ "")
    (hgpt : S.typ = TokType.gpt4 → S.merges ≠ [] ∧ S.specialTokens ≠ [] ∧
      ∃ bs, S.byteShuffle = some bs ∧
        S.inverseByteShuffle = some (invertDict bs))
    (hnotgpt : S.typ ≠ TokType.gpt4 →
      S.byteShuffle = none ∧ S.inverseByteShuffle = none) :
    ∃ S', load_tokenizer_from_config (export_tokenizer_config S S.typ) =
        some S' ∧
      (∀ compile text,
        encodeText compile S' text = encodeText compile S text) ∧
      (∀ ids, decodeText S' ids = decodeText S ids) := by
  refine ⟨S, ?_, fun _ _ => rfl, fun _ => rfl⟩
  have hcm : (export_tokenizer_config S S.typ).merges = some S.merges := rfl
  have hcs : (export_tokenizer_config S S.typ).special_tokens =
      some S.specialTokens := rfl
  have hcp : (export_tokenizer_config S S.typ).pattern = some S.pattern := rfl
  have hcreate_typ : ∀ ty, (create_tokenizer ty).typ = ty := by
    intro ty
    cases ty <;> rfl
  have ht1 : ∃ t1,
      loadMerges (export_tokenizer_config S S.typ)
        (create_tokenizer (export_tokenizer_config S S.typ).typ) = some t1 ∧
      t1.merges = S.merges ∧ t1.vocab = S.vocab ∧
      t1.specialTokens = (create_tokenizer S.typ).specialTokens ∧
      t1.pattern = (create_tokenizer S.typ).pattern ∧
      t1.byteShuffle = (create_tokenizer S.typ).byteShuffle ∧
      t1.inverseByteShuffle =
        (create_tokenizer S.typ).inverseByteShuffle ∧
      t1.typ = S.typ := by
    rw [show (export_tokenizer_config S S.typ).typ = S.typ from rfl]
    cases hms : S.merges with
    | nil =>
        rw [loadMerges_empty _ _ (Or.inr (by rw [hcm, hms]))]
        have hvb : S.vocab = baseVocab := by
          rw [hms] at hvocab
          exact (Option.some.inj hvocab).symm
        have hng : S.typ ≠ TokType.gpt4 := fun hg => (hgpt hg).1 hms
        refine ⟨create_tokenizer S.typ, rfl, ?_, ?_, rfl, rfl, rfl, rfl,
          hcreate_typ _⟩
        · cases hty : S.typ
          · rfl
          · rfl
          · exact absurd hty hng
        · rw [hvb]
          cases hty : S.typ
          · rfl
          · rfl
          · exact absurd hty hng
    | cons m ms =>
        have hbv : buildVocab (dictOfList (m :: ms)) = some S.vocab := by
          rw [← hms, hdict]
          exact hvocab
        rw [loadMerges_set _ _ m ms S.vocab (by rw [hcm, hms]) hbv]
        refine ⟨_, rfl, ?_, rfl, rfl, rfl, rfl, rfl, hcreate_typ _⟩
        show dictOfList (m :: ms) = m :: ms
        rw [← hms, hdict]
  obtain ⟨t1, h1, h1m, h1v, h1s, h1p, h1b, h1i, h1t⟩ := ht1
  unfold load_tokenizer_from_config
  rw [h1]
  dsimp only
  refine congrArg some ?_
  apply Tokenizer.ext
  · rw [(loadShuffle_frame _ _).1, (loadPattern_frame _ _).1,
      (loadSpecials_frame _ _).1, h1t]
  · rw [(loadShuffle_frame _ _).2.1, (loadPattern_frame _ _).2.1,
      (loadSpecials_frame _ _).2.1, h1m]
  · rw [(loadShuffle_frame _ _).2.2.2.1, (loadPattern_frame _ _).2.2.2.1]
    cases hss : S.specialTokens with
    | nil =>
        rw [loadSpecials_empty _ _ (Or.inr (by rw [hcs, hss])), h1s]
        have hng : S.typ ≠ TokType.gpt4 := fun hg => (hgpt hg).2.1 hss
        cases hty : S.typ
        · rfl
        · rfl
        · exact absurd hty hng
    | cons s ss =>
        rw [loadSpecials_set _ _ s ss (by rw [hcs, hss])]
  · rw [(loadShuffle_frame _ _).2.2.2.2]
    by_cases hp : S.pattern = ""
    · rw [loadPattern_empty _ _ (Or.inr (by rw [hcp, hp])),
        (loadSpecials_frame _ _).2.2.2.1, h1p, hp]
      cases hty : S.typ
      · rfl
      · exact absurd hp (hpat (by rw [hty]; exact fun h => TokType.noConfusion h))
      · exact absurd hp (hpat (by rw [hty]; exact fun h => TokType.noConfusion h))
    · rw [loadPattern_set _ _ S.pattern (by rw [hcp]) hp]
  · rw [(loadShuffle_frame _ _).2.2.1, (loadPattern_frame _ _).2.2.1,
      (loadSpecials_frame _ _).2.2.1, h1v]
  · by_cases hg : S.typ = TokType.gpt4
    · obtain ⟨-, -, bs, hbs, hibs⟩ := hgpt hg
      have hcb : (export_tokenizer_config S S.typ).byte_shuffle = some bs := by
        show (if S.typ = TokType.gpt4 then S.byteShuffle else none) = some bs
        rw [if_pos hg, hbs]
      rw [loadShuffle_set _ _ bs
        (show (export_tokenizer_config S S.typ).typ = TokType.gpt4 from hg)
        hcb]
      exact hbs.symm
    · have hns := hnotgpt hg
      rw [loadShuffle_not_gpt4 _ _
        (show (export_tokenizer_config S S.typ).typ ≠ TokType.gpt4 from hg),
        (loadPattern_frame _ _).2.2.2.2.1, (loadSpecials_frame _ _).2.2.2.2.1,
        h1b, hns.1]
      cases hty : S.typ
      · rfl
      · rfl
      · exact absurd hty hg
  · by_cases hg : S.typ = TokType.gpt4
    · obtain ⟨-, -, bs, hbs, hibs⟩ := hgpt hg
      have hcb : (export_tokenizer_config S S.typ).byte_shuffle = some bs := by
        show (if S.typ = TokType.gpt4 then S.byteShuffle else none) = some bs
        rw [if_pos hg, hbs]
      rw [loadShuffle_set _ _ bs
        (show (export_tokenizer_config S S.typ).typ = TokType.gpt4 from hg)
        hcb]
      exact hibs.symm
    · have hns := hnotgpt hg
      rw [loadShuffle_not_gpt4 _ _
        (show (export_tokenizer_config S S.typ).typ ≠ TokType.gpt4 from hg),
        (loadPattern_frame _ _).2.2.2.2.2, (loadSpecials_frame _ _).2.2.2.2.2,
        h1i, hns.2]
      cases hty : S.typ
      · rfl
      · rfl
      · exact absurd hty hg

set_option maxRecDepth 20000 in
theorem c4_import_export_roundtrip_witness :
    ∃ S', load_tokenizer_from_config
        (export_tokenizer_config (create_tokenizer TokType.basic)
          (create_tokenizer TokType.basic).typ) = some S' ∧
      (∀ compile text, encodeText compile S' text =
        encodeText compile (create_tokenizer TokType.basic) text) ∧
      (∀ ids, decodeText S' ids =
        decodeText (create_tokenizer TokType.basic) ids) :=
  c4_import_export_roundtrip (create_tokenizer TokType.basic)
    (by rfl)
    (by rfl)
    (by intro h; exact absurd rfl h)
    (by intro h; exact absurd h (by decide))
    (by intro _; exact ⟨rfl, rfl⟩)

end Minbpe
